import Mathlib

/-!
Verification development for the HTTPProxy repository.

The embedding models the two source files:
* `http_parser.py` — the `HTTPHeader` class: parsing a raw header block,
  accessors/mutators, and `generate_header`.
* `server.py` — the per-connection worker, the CONNECT tunnel relay,
  the non-CONNECT forwarding pipeline, and `get_host_port`.

Strings/bytes are modelled as `List Char` (the proxy treats bytes and
decoded text interchangeably; one `Char` stands for one byte / code point).
Network effects are modelled by explicit event schedules passed to the
functions that in Python perform `recv`/`select`; the values carried by the
events are the values the corresponding Python call would have returned.
-/

namespace HTTPProxy

abbrev Str := List Char

/-- Python `str.isspace` characters in the byte range (used by `strip` and
`split()` with no separator).  Characters above U+00FF do not occur in the
byte-oriented HTTP traffic being modelled. -/
def pyWS : Char → Bool
  | ' ' | '\t' | '\n' | '\r' => true
  | c => c = '\x0b' || c = '\x0c' || c = '\x1c' || c = '\x1d'
      || c = '\x1e' || c = '\x1f' || c = '\x85' || c = '\xa0'

def notWS (c : Char) : Bool := !pyWS c

/-- Python `str.strip()` (left part). -/
def trimLeft (l : Str) : Str := l.dropWhile pyWS

/-- Python `str.strip()` (right part): drop trailing whitespace. -/
def trimRight : Str → Str
  | [] => []
  | c :: rest =>
    match trimRight rest with
    | [] => if pyWS c then [] else [c]
    | r => c :: r

/-- Python `str.strip()`. -/
def trimWS (l : Str) : Str := trimRight (trimLeft l)

/-- Split at every character satisfying `p`, keeping empty pieces —
Python `str.split(sep)` generalised to a character predicate. -/
def splitP (p : Char → Bool) : Str → List Str
  | [] => [[]]
  | c :: rest =>
    if p c then [] :: splitP p rest
    else
      match splitP p rest with
      | [] => [[c]]
      | h :: t => (c :: h) :: t

/-- Python `str.split(sep)` for a one-character separator. -/
def splitChar (sep : Char) : Str → List Str := splitP (fun c => c = sep)

/-- Python `str.split()` (no separator): split on whitespace runs,
dropping empty pieces. -/
def pySplitWS (l : Str) : List Str := (splitP pyWS l).filter (fun s => s ≠ [])

/-- Python `str.split(None, 2)` on a string with no leading whitespace
needed beyond what the implementation strips itself. -/
def splitNone2 (l : Str) : List Str :=
  let l1 := l.dropWhile pyWS
  match l1 with
  | [] => []
  | _ :: _ =>
    let tok1 := l1.takeWhile notWS
    let r1 := (l1.dropWhile notWS).dropWhile pyWS
    match r1 with
    | [] => [tok1]
    | _ :: _ =>
      let tok2 := r1.takeWhile notWS
      let r2 := ((r1.dropWhile notWS).dropWhile pyWS)
      match r2 with
      | [] => [tok1, tok2]
      | _ :: _ => [tok1, tok2, r2]

/-- Python `str.split(sep, 1)` for a one-character separator: the part
before the first occurrence, and — when the separator occurs — the rest. -/
def splitFirstChar (sep : Char) : Str → Str × Option Str
  | [] => ([], none)
  | c :: rest =>
    if c = sep then ([], some rest)
    else
      let (a, b) := splitFirstChar sep rest
      (c :: a, b)

/-- `pat` is a prefix of `l` — Python `str.startswith`. -/
def leadsWith : Str → Str → Bool
  | [], _ => true
  | _ :: _, [] => false
  | p :: ps, c :: cs => p == c && leadsWith ps cs

/-- Python `bytes.split(pat, 1)` for a multi-character pattern: piece before
the first occurrence and, when present, the remainder after it. -/
def splitOnceSub (pat : Str) : Str → Str × Option Str
  | [] => ([], none)
  | c :: rest =>
    if leadsWith pat (c :: rest) then ([], some ((c :: rest).drop pat.length))
    else
      let (a, b) := splitOnceSub pat rest
      (c :: a, b)

/-- `pat` occurs somewhere in `l` — Python `pat in l` / `l.find(pat) != -1`
(for nonempty `pat`). -/
def containsSub (pat : Str) (l : Str) : Bool := (splitOnceSub pat l).2.isSome

/-- One character occurs in the string — Python `c in s`. -/
def containsChar (c : Char) (l : Str) : Bool := l.contains c

/-- Python `s.replace('\r\n', '\n')`: left-to-right, non-overlapping. -/
def replaceCRLF : Str → Str
  | [] => []
  | [c] => [c]
  | c :: d :: rest =>
    if c = '\r' ∧ d = '\n' then '\n' :: replaceCRLF rest
    else c :: replaceCRLF (d :: rest)

/-- Python `s.replace('\r', '\n')`. -/
def mapCR (l : Str) : Str := l.map (fun c => if c = '\r' then '\n' else c)

/-- Line-ending normalisation performed at the top of `HTTPHeader._parse`. -/
def normalizeNL (l : Str) : Str := mapCR (replaceCRLF l)

/-- Python `'\n'.join(lines)`. -/
def joinNL : List Str → Str
  | [] => []
  | [x] => x
  | x :: xs => x ++ '\n' :: joinNL xs

/-- Python `'\r\n'.join(lines)` (used by `generate_header`). -/
def joinCRLF : List Str → Str
  | [] => []
  | [x] => x
  | x :: xs => x ++ '\r' :: '\n' :: joinCRLF xs

/-- ASCII lowering of one character — Python `str.lower` restricted to the
ASCII letters that occur in request targets. -/
def pyLowerChar (c : Char) : Char := if 'A' ≤ c ∧ c ≤ 'Z' then c.toLower else c

/-- Python `str.lower()`. -/
def pyLower (l : Str) : Str := l.map pyLowerChar

/-- Value of an ASCII decimal digit. -/
def digitVal : Char → Option Nat
  | '9' => some 9 | '8' => some 8 | '7' => some 7 | '6' => some 6 | '5' => some 5
  | '4' => some 4 | '3' => some 3 | '2' => some 2 | '1' => some 1 | '0' => some 0
  | _ => none

/-- ASCII character of a decimal digit (argument reduced mod 10 by use sites). -/
def digitChar : Nat → Char
  | 0 => '0' | 1 => '1' | 2 => '2' | 3 => '3' | 4 => '4'
  | 5 => '5' | 6 => '6' | 7 => '7' | 8 => '8' | _ => '9'

/-- Digit run of Python `int(str)`: decimal digits with single underscores
allowed between digits only. -/
def parseDigitsCore : Nat → Str → Option Nat
  | acc, [] => some acc
  | acc, c :: rest =>
    if c = '_' then
      match rest with
      | [] => none
      | c2 :: rest2 =>
        match digitVal c2 with
        | some d => parseDigitsCore (acc * 10 + d) rest2
        | none => none
    else
      match digitVal c with
      | some d => parseDigitsCore (acc * 10 + d) rest
      | none => none

/-- Digits part of `int(str)`: at least one digit, then `parseDigitsCore`. -/
def parseDigitsStart : Str → Option Nat
  | [] => none
  | c :: rest =>
    match digitVal c with
    | some d => parseDigitsCore d rest
    | none => none

/-- Python `int(str)` on ASCII input: surrounding whitespace ignored,
optional sign, decimal digits with underscore separators.  `none` models a
raised `ValueError`. -/
def pythonInt (s : Str) : Option Int :=
  match trimWS s with
  | [] => none
  | c :: rest =>
    if c = '+' then (parseDigitsStart rest).map Int.ofNat
    else if c = '-' then (parseDigitsStart rest).map (fun n => -(Int.ofNat n))
    else (parseDigitsStart (c :: rest)).map Int.ofNat

/-- Decimal digits of `n`, most significant first, via a fuel argument kept
structural so that the kernel can evaluate it. -/
def natReprAux : Nat → Nat → Str
  | 0, _ => []
  | _ + 1, 0 => []
  | fuel + 1, n => natReprAux fuel (n / 10) ++ [digitChar (n % 10)]

/-- Python `str(n)` for a natural number. -/
def natRepr (n : Nat) : Str := if n = 0 then ['0'] else natReprAux (n + 1) n

/-- Python `str(i)` / f-string formatting of an `int`. -/
def intRepr : Int → Str
  | Int.ofNat n => natRepr n
  | Int.negSucc n => '-' :: natRepr (n + 1)

/-! ## Message model (`http_parser.HTTPHeader`) -/

/-- The structured form of one HTTP header block (`http_parser.HTTPHeader`).
`headers` is the insertion-ordered dictionary; keys are unique by
construction (`set_header` overwrites in place). -/
structure HTTPHeader where
  method : Option Str := none
  path : Option Str := none
  version : Str := "HTTP/1.1".data
  status_code : Option Int := none
  status_message : Option Str := none
  headers : List (Str × Str) := []
  body : Option Str := none
  is_request : Bool := true
deriving DecidableEq, Repr

/-- Python dict insertion/update: overwrite in place when the key exists,
append otherwise (`self.headers[key] = value`). -/
def setPair (k v : Str) : List (Str × Str) → List (Str × Str)
  | [] => [(k, v)]
  | (k', v') :: rest => if k' = k then (k, v) :: rest else (k', v') :: setPair k v rest

/-- Python `dict.get(key)` — case-sensitive, first (unique) match. -/
def getPair (k : Str) : List (Str × Str) → Option Str
  | [] => none
  | (k', v') :: rest => if k' = k then some v' else getPair k rest

/-- `HTTPHeader._parse_request_line`: split on whitespace, up to three
tokens become method / path / version. -/
def parseRequestLine (l : Str) (h : HTTPHeader) : HTTPHeader :=
  match pySplitWS l with
  | [] => h
  | [m] => { h with method := some m }
  | [m, p] => { h with method := some m, path := some p }
  | m :: p :: v :: _ => { h with method := some m, path := some p, version := v }

/-- `HTTPHeader._parse_status_line`: `split(None, 2)`, version / int status
code (`None` on `ValueError`) / remainder message. -/
def parseStatusLine (l : Str) (h : HTTPHeader) : HTTPHeader :=
  match splitNone2 l with
  | [] => h
  | [v] => { h with version := v }
  | [v, c] => { h with version := v, status_code := pythonInt c }
  | v :: c :: m :: _ =>
    { h with version := v, status_code := pythonInt c, status_message := some m }

/-- The header-line loop of `HTTPHeader._parse`: strip each line, stop at the
first empty line (everything after it joined by `\n` becomes the body, only
when lines remain), insert `key: value` lines into the dictionary, silently
skip lines without a colon. -/
def parseHeaderLines : List Str → List (Str × Str) → List (Str × Str) × Option Str
  | [], acc => (acc, none)
  | line :: rest, acc =>
    let l := trimWS line
    if l = [] then
      (acc, if rest = [] then none else some (joinNL rest))
    else
      match splitFirstChar ':' l with
      | (k, some v) => parseHeaderLines rest (setPair (trimWS k) (trimWS v) acc)
      | (_, none) => parseHeaderLines rest acc

/-- `HTTPHeader._parse` (invoked by the constructor): empty input leaves all
defaults; otherwise normalise line endings, split into lines, classify the
first stripped line by the `HTTP/` prefix, then run the header-line loop. -/
def parse (s : Str) : HTTPHeader :=
  if s = [] then {}
  else
    match splitChar '\n' (normalizeNL s) with
    | [] => {}
    | first :: rest =>
      let fl := trimWS first
      let h0 : HTTPHeader :=
        if leadsWith "HTTP/".data fl then parseStatusLine fl { is_request := false }
        else parseRequestLine fl { is_request := true }
      let (hs, b) := parseHeaderLines rest []
      { h0 with headers := hs, body := b }

/-- `HTTPHeader.get_header`. -/
def getHeader (h : HTTPHeader) (k : Str) : Option Str := getPair k h.headers

/-- `HTTPHeader.set_header` / `add_header`. -/
def set_header (h : HTTPHeader) (k v : Str) : HTTPHeader :=
  { h with headers := setPair k v h.headers }

/-- `HTTPHeader.set_version`. -/
def set_version (h : HTTPHeader) (v : Str) : HTTPHeader := { h with version := v }

/-- `HTTPHeader.remove_header`: absent key is a no-op. -/
def remove_header (h : HTTPHeader) (k : Str) : HTTPHeader :=
  { h with headers := h.headers.filter (fun kv => kv.1 ≠ k) }

/-- Python truthiness of an `Optional[str]`: `None` and `""` are falsy. -/
def truthyOpt : Option Str → Bool
  | none => false
  | some [] => false
  | some (_ :: _) => true

/-- Python `a or b` on `Optional[str]` values. -/
def pyOrOpt (a b : Option Str) : Option Str := if truthyOpt a then a else b

/-- Python `x or default` where `x : Optional[str]` and the default is used
for `None` and for the falsy empty string. -/
def pyOrStr (a : Option Str) (dflt : Str) : Str :=
  match a with
  | none => dflt
  | some [] => dflt
  | some (c :: cs) => c :: cs

/-- Python `self.status_code or 200` (`0` is falsy). -/
def pyOrCode (a : Option Int) : Int :=
  match a with
  | none => 200
  | some c => if c = 0 then 200 else c

/-- `HTTPHeader.generate_header`: first line (with Python-truthiness
defaults), `Name: Value` lines in dictionary order, one blank line, then the
body when truthy, all joined by CRLF. -/
def generate (h : HTTPHeader) : Str :=
  let first :=
    if h.is_request then
      pyOrStr h.method "GET".data ++ ' ' :: (pyOrStr h.path "/".data ++ ' ' :: h.version)
    else
      h.version ++ ' ' :: (intRepr (pyOrCode h.status_code) ++ ' ' ::
        pyOrStr h.status_message "OK".data)
  let hlines := h.headers.map (fun kv => kv.1 ++ ':' :: ' ' :: kv.2)
  let bodyPart : List Str :=
    match h.body with
    | none => []
    | some [] => []
    | some (c :: cs) => [c :: cs]
  joinCRLF (first :: (hlines ++ [[]] ++ bodyPart))

/-! ## Server model (`server.py`)

Network reads are driven by explicit event lists.  A `RecvEvent` is what one
`recv` call on a socket with a bounded timeout can produce: a chunk of data
(`data []` is the zero-length read of a closed peer), a `socket.timeout`,
or a `ConnectionResetError`.  An exhausted event list inside a
recv-until-timeout loop stands for the timeout that the 5-second socket
timeout eventually guarantees. -/

inductive RecvEvent
  | data (chunk : Str)
  | timeout
  | reset
deriving DecidableEq, Repr

/-- Python exceptions that `get_host_port` can raise. -/
inductive PyErr
  | typeError
  | valueError
  | attributeError
deriving DecidableEq, Repr

/-- `server.get_host_port`: read `Host` (falling back to `host` via Python
`or`); `None` makes `':' in dest` raise `TypeError`; with a colon,
`dest.split(':')` must unpack into exactly two parts (`ValueError`
otherwise) and the port must parse as `int` (`ValueError` otherwise);
without a colon the port is 80, promoted to 443 when the lowercased request
path contains `https://` (`AttributeError` when the path is `None`). -/
def get_host_port (h : HTTPHeader) : Except PyErr (Str × Int) :=
  match pyOrOpt (getHeader h "Host".data) (getHeader h "host".data) with
  | none => .error .typeError
  | some dest =>
    if containsChar ':' dest then
      match splitChar ':' dest with
      | [host, port] =>
        match pythonInt port with
        | some p => .ok (host, p)
        | none => .error .valueError
      | _ => .error .valueError
    else
      match h.path with
      | none => .error .attributeError
      | some p =>
        .ok (dest, if containsSub "https://".data (pyLower p) then 443 else 80)

/-- Modelled from the spec: `HTTPHeader.change_path_to_relative` is called by
`process_non_connection_request` but its definition is not in
`src/http_parser.py`.  Per §4.6: "Rewrite the request target to be relative
(strip scheme/host so the origin receives an origin-form request line)" —
drop everything through the `://` scheme token and the host that follows it,
keeping the path from its first `/`; a target without a path component
becomes `/`.  A target with no scheme token is left unchanged. -/
def change_path_to_relative (h : HTTPHeader) : HTTPHeader :=
  match h.path with
  | none => h
  | some p =>
    match (splitOnceSub "://".data p).2 with
    | none => h
    | some afterScheme =>
      let rel := afterScheme.dropWhile (fun c => c ≠ '/')
      { h with path := some (match rel with | [] => "/".data | c :: cs => c :: cs) }

/-- The pre-dispatch rewrite in `worker` (lines 143–146): force
`Connection: close`, downgrade to `HTTP/1.0`, and force
`Proxy-Connection: close` only when that header is present and truthy. -/
def workerRewrite (h : HTTPHeader) : HTTPHeader :=
  let h1 := set_header h "Connection".data "close".data
  let h2 := set_version h1 "HTTP/1.0".data
  if truthyOpt (getHeader h2 "Proxy-Connection".data) then
    set_header h2 "Proxy-Connection".data "close".data
  else h2

/-! ### CONNECT tunnel relay -/

/-- One iteration of `select.select([client, dest], [], [], .0001)` together
with the data each ready socket's `recv` would return (`some []` is the
zero-length read of a closed peer; `none` means not readable). -/
structure SelectEv where
  cl : Option Str
  ds : Option Str
deriving DecidableEq, Repr

/-- Primitive socket actions of the relay loop, in program order. -/
inductive RelayAct
  | readClient (d : Str)
  | writeDest (d : Str)
  | readDest (d : Str)
  | writeClient (d : Str)
  | closeBoth
deriving DecidableEq, Repr

/-- The `while True` relay loop of `process_connection_request`
(lines 205–220): each iteration services the client first, then the
destination; a zero-length read closes both sockets and breaks.  Returns the
action trace and whether the loop terminated (an exhausted schedule models a
tunnel that is still idle, with the loop still polling). -/
def relayRun : List SelectEv → List RelayAct × Bool
  | [] => ([], false)
  | ev :: rest =>
    match ev.cl with
    | some [] => ([.readClient [], .closeBoth], true)
    | some (c :: cs) =>
      match ev.ds with
      | some [] =>
        ([.readClient (c :: cs), .writeDest (c :: cs), .readDest [], .closeBoth], true)
      | some (e :: es) =>
        let (t, fin) := relayRun rest
        (.readClient (c :: cs) :: .writeDest (c :: cs) ::
          .readDest (e :: es) :: .writeClient (e :: es) :: t, fin)
      | none =>
        let (t, fin) := relayRun rest
        (.readClient (c :: cs) :: .writeDest (c :: cs) :: t, fin)
    | none =>
      match ev.ds with
      | some [] => ([.readDest [], .closeBoth], true)
      | some (e :: es) =>
        let (t, fin) := relayRun rest
        (.readDest (e :: es) :: .writeClient (e :: es) :: t, fin)
      | none => relayRun rest

/-- Outcome of `process_connection_request`: what the proxy itself sent to
the client before/at the handshake, the relay trace, and whether each socket
ended closed (`cleanup_socket` in the `finally` block also removes the
destination socket from the registry). -/
structure ConnResult where
  handshake : List Str
  trace : List RelayAct
  clientClosed : Bool
  destClosed : Bool
deriving DecidableEq, Repr

/-- The literal 502 response of `process_connection_request`. -/
def err502 : Str := "HTTP/1.0 502 Bad Gateway\r\n\r\n".data

/-- The literal 200 response of `process_connection_request`. -/
def ok200 : Str := "HTTP/1.0 200 Connection Established\r\n\r\n".data

/-- `server.process_connection_request`: resolve the destination (any raised
exception is caught by the outer `except` and the `finally` closes both
sockets with nothing sent); on connect failure send exactly `err502` and
close both; on success send exactly `ok200` and run the relay loop, whose
`break` paths close both sockets (the `finally` then deregisters them). -/
def processConnection (h : HTTPHeader) (connectOk : Bool)
    (sched : List SelectEv) : ConnResult :=
  match get_host_port h with
  | .error _ => ⟨[], [], true, true⟩
  | .ok _ =>
    if connectOk then
      let (t, fin) := relayRun sched
      ⟨[ok200], t, fin, fin⟩
    else
      ⟨[err502], [], true, true⟩

/-! ### Non-CONNECT forwarding pipeline -/

/-- The request-body loop of `process_non_connection_request`
(lines 263–276): `client_payload` is never appended to, so its
`\r\n\r\n` check never fires and the loop simply forwards each chunk to the
destination until a timeout or a zero-length read breaks it; a
`ConnectionResetError` propagates to the outer `except` (second component
`true`). -/
def bodyRelay : List RecvEvent → List Str × Bool
  | [] => ([], false)
  | .timeout :: _ => ([], false)
  | .reset :: _ => ([], true)
  | .data [] :: _ => ([], false)
  | .data (c :: cs) :: rest =>
    let (l, r) := bodyRelay rest
    ((c :: cs) :: l, r)

/-- The response-header accumulation loop (lines 279–296): grow `resp_buf`
until it contains `\r\n\r\n`; timeout or a zero-length read breaks; a
`ConnectionResetError` propagates (middle component `true`).  Returns the
buffer, the raised flag, and the unconsumed destination events. -/
def accumResp (buf : Str) : List RecvEvent → Str × Bool × List RecvEvent
  | [] => (buf, false, [])
  | e :: rest =>
    if containsSub "\r\n\r\n".data buf then (buf, false, e :: rest)
    else
      match e with
      | .timeout => (buf, false, rest)
      | .reset => (buf, true, rest)
      | .data [] => (buf, false, rest)
      | .data (c :: cs) => accumResp (buf ++ c :: cs) rest

/-- The response-payload loop (lines 319–331): forward destination chunks to
the client until timeout or a zero-length read; reset propagates. -/
def payloadRelay : List RecvEvent → List Str × Bool
  | [] => ([], false)
  | .timeout :: _ => ([], false)
  | .reset :: _ => ([], true)
  | .data [] :: _ => ([], false)
  | .data (c :: cs) :: rest =>
    let (l, r) := payloadRelay rest
    ((c :: cs) :: l, r)

/-- The request-header rewrite of `process_non_connection_request`
(lines 253–256): make the target relative, force `Connection: close`,
downgrade to `HTTP/1.0`, and set `Proxy-Connection: close`
unconditionally. -/
def forwardedReqHeader (h : HTTPHeader) : HTTPHeader :=
  set_header
    (set_version
      (set_header (change_path_to_relative h) "Connection".data "close".data)
      "HTTP/1.0".data)
    "Proxy-Connection".data "close".data

/-- The response-header rewrite (lines 302–304): force `HTTP/1.0`,
`Connection: close`, and `Proxy-Connection: close`, all unconditionally. -/
def forwardedRespHeader (h : HTTPHeader) : HTTPHeader :=
  set_header
    (set_header (set_version h "HTTP/1.0".data) "Connection".data "close".data)
    "Proxy-Connection".data "close".data

/-- Network schedule for one `process_non_connection_request` run: whether
`dest_socket.connect` succeeds, the client-socket reads of the body loop,
and the destination-socket reads (consumed first by the response-header
loop, then by the payload loop). -/
structure NCNet where
  connectOk : Bool
  clientEvs : List RecvEvent
  destEvs : List RecvEvent
deriving Repr

/-- Outcome of `process_non_connection_request`: the `send` calls made to
each socket in order, the final socket states (the `finally` block closes
and deregisters both on every path), and whether an exception was caught. -/
structure NCResult where
  toDest : List Str
  toClient : List Str
  clientClosed : Bool
  destClosed : Bool
  aborted : Bool
deriving DecidableEq, Repr

/-- The tail of `process_non_connection_request` after the response header
has been parsed and rewritten: send the rewritten header and the leftover
response bytes, then evaluate
`content_length and len(resp_buf) < int(content_length) or transfer_encoding`
(Python truthiness and short-circuit order; a `ValueError` from `int` is
caught by the outer `except`) and, when it holds, run the payload loop. -/
def ncRespond (toDest : List Str) (rh : HTTPHeader) (rleft : Str)
    (evs : List RecvEvent) : NCResult :=
  let sent1 := [generate rh, rleft]
  let clOpt := getHeader rh "Content-Length".data
  let teTruthy := truthyOpt (getHeader rh "Transfer-Encoding".data)
  if truthyOpt clOpt then
    match pythonInt (clOpt.getD []) with
    | none => ⟨toDest, sent1, true, true, true⟩
    | some n =>
      if (rleft.length : Int) < n then
        let (chunks, r) := payloadRelay evs
        ⟨toDest, sent1 ++ chunks, true, true, r⟩
      else if teTruthy then
        let (chunks, r) := payloadRelay evs
        ⟨toDest, sent1 ++ chunks, true, true, r⟩
      else ⟨toDest, sent1, true, true, false⟩
  else if teTruthy then
    let (chunks, r) := payloadRelay evs
    ⟨toDest, sent1 ++ chunks, true, true, r⟩
  else ⟨toDest, sent1, true, true, false⟩

/-- `server.process_non_connection_request`: resolve and connect (failures
are caught by the outer `except`; the `finally` closes both sockets with
nothing sent); rewrite the request header and send it together with the
read-ahead bytes in one `send`; run the body loop when `Content-Length` or
`Transfer-Encoding` is truthy; accumulate the response header; split it on
`\r\n\r\n` (the `[1]` index raises `IndexError` when the terminator never
arrived — caught, aborting with nothing sent to the client); rewrite and
answer the client. -/
def processNonConnection (h : HTTPHeader) (pbuf : Str) (net : NCNet) : NCResult :=
  match get_host_port h with
  | .error _ => ⟨[], [], true, true, true⟩
  | .ok _ =>
    if net.connectOk then
      let h2 := forwardedReqHeader h
      let reqBytes := generate h2 ++ pbuf
      let (bodyChunks, bodyRaised) :=
        if truthyOpt (getHeader h2 "Content-Length".data)
            || truthyOpt (getHeader h2 "Transfer-Encoding".data) then
          bodyRelay net.clientEvs
        else ([], false)
      let toDest := reqBytes :: bodyChunks
      if bodyRaised then ⟨toDest, [], true, true, true⟩
      else
        let (rbuf, respRaised, evs) := accumResp [] net.destEvs
        if respRaised then ⟨toDest, [], true, true, true⟩
        else
          match splitOnceSub "\r\n\r\n".data rbuf with
          | (_, none) => ⟨toDest, [], true, true, true⟩
          | (rawh, some rleft) =>
            ncRespond toDest (forwardedRespHeader (parse rawh)) rleft evs
    else ⟨[], [], true, true, true⟩

/-! ### Connection worker -/

/-- Result of the header-read loop in `worker` (lines 113–134): the loop
keeps appending `recv` results until the buffer contains `\r\n\r\n` or
`\n\n`; `socket.timeout` and `ConnectionResetError` abort the worker after
cleaning up the client socket.  `blocked` is the model artifact of an
exhausted schedule with the loop still waiting. -/
inductive HeaderRead
  | done (buf : Str)
  | timedOut
  | resetHit
  | blocked
deriving DecidableEq, Repr

def readHeaderLoop (buf : Str) : List RecvEvent → HeaderRead
  | [] =>
    if containsSub "\r\n\r\n".data buf || containsSub "\n\n".data buf then .done buf
    else .blocked
  | e :: rest =>
    if containsSub "\r\n\r\n".data buf || containsSub "\n\n".data buf then .done buf
    else
      match e with
      | .timeout => .timedOut
      | .reset => .resetHit
      | .data d => readHeaderLoop (buf ++ d) rest

/-- Outcome of one `worker` run.  `recvAbort` (timeout/reset) cleans up the
client socket and returns.  `crash` is the uncaught `IndexError` of
`packet_buf[1]` at line 141: the buffer contained `\n\n` but not
`\r\n\r\n` (the `delim = b"\n\n"` reassignment inside the loop is
unreachable, so the split always uses `\r\n\r\n`), the worker thread dies
and the client socket is left open.  Otherwise the request is dispatched. -/
inductive WorkerOutcome
  | recvAbort
  | blocked
  | crash
  | didConnect (r : ConnResult)
  | didForward (r : NCResult)
deriving Repr

/-- Network schedule for a whole `worker` run. -/
structure WorkerNet where
  connectOk : Bool
  sched : List SelectEv
  clientEvs : List RecvEvent
  destEvs : List RecvEvent
deriving Repr

/-- `server.worker` (lines 99–166): read up to the header terminator, split
off the read-ahead bytes, parse, apply the pre-dispatch rewrite (the
`to_output` call at line 149 is diagnostic output only — modelled from the
spec: the debug/verbosity output "does not affect protocol behavior"), then
dispatch on `get_method() == "CONNECT"`. -/
def worker (evs : List RecvEvent) (net : WorkerNet) : WorkerOutcome :=
  match readHeaderLoop [] evs with
  | .blocked => .blocked
  | .timedOut => .recvAbort
  | .resetHit => .recvAbort
  | .done buf =>
    match splitOnceSub "\r\n\r\n".data buf with
    | (_, none) => .crash
    | (rawh, some leftover) =>
      let h := workerRewrite (parse rawh)
      if h.method = some "CONNECT".data then
        .didConnect (processConnection h net.connectOk net.sched)
      else
        .didForward (processNonConnection h leftover
          ⟨net.connectOk, net.clientEvs, net.destEvs⟩)

/-- Whether the worker's client socket ended closed. -/
def workerClientClosed : WorkerOutcome → Bool
  | .recvAbort => true
  | .blocked => false
  | .crash => false
  | .didConnect r => r.clientClosed
  | .didForward r => r.clientClosed

/-! ## Specification-side predicates -/

/-- The pure-byte-pump contract of the relay loop: a trace is blocks of
"read a nonempty chunk, immediately write that same chunk to the other
socket", terminated either by exhaustion of observed events or by a
zero-length read immediately followed by closing both sockets, after which
nothing further happens. -/
inductive GoodTrace : List RelayAct → Prop
  | nil : GoodTrace []
  | fwdClient (c : Char) (cs : Str) (rest : List RelayAct) : GoodTrace rest →
      GoodTrace (.readClient (c :: cs) :: .writeDest (c :: cs) :: rest)
  | fwdDest (c : Char) (cs : Str) (rest : List RelayAct) : GoodTrace rest →
      GoodTrace (.readDest (c :: cs) :: .writeClient (c :: cs) :: rest)
  | eofClient : GoodTrace [.readClient [], .closeBoth]
  | eofDest : GoodTrace [.readDest [], .closeBoth]

/-- No character of the string is Python whitespace. -/
def noWSStr (l : Str) : Prop := ∀ c ∈ l, pyWS c = false

/-- A nonempty whitespace-free token (as produced by Python `split`). -/
def tokenOK (t : Str) : Prop := t ≠ [] ∧ noWSStr t

/-- No line-ending characters. -/
def noNL (l : Str) : Prop := ∀ c ∈ l, c ≠ '\n' ∧ c ≠ '\r'

/-- The string carries no surrounding whitespace: its first and last
characters (when they exist) are not Python whitespace. -/
def stripped (l : Str) : Prop :=
  (∀ c t, l = c :: t → pyWS c = false) ∧ (∀ a d, l = a ++ [d] → pyWS d = false)

/-- A stripped nonempty line treated as a header field line. -/
def pairOK (kv : Str × Str) : Prop :=
  noNL kv.1 ∧ noNL kv.2 ∧ stripped kv.1 ∧ stripped kv.2 ∧ ':' ∉ kv.1

/-- Structural invariants every `parse` result satisfies; they are exactly
what makes `generate` invertible on the populated fields. -/
def WF (h : HTTPHeader) : Prop :=
  (∀ t, h.method = some t → tokenOK t ∧ leadsWith "HTTP/".data t = false) ∧
  (∀ t, h.path = some t → tokenOK t) ∧
  tokenOK h.version ∧
  (h.is_request = false → leadsWith "HTTP/".data h.version = true) ∧
  (∀ m, h.status_message = some m → m ≠ [] ∧ noNL m ∧ stripped m) ∧
  (∀ kv ∈ h.headers, pairOK kv) ∧
  h.headers.Pairwise (fun a b => a.1 ≠ b.1) ∧
  (∀ b, h.body = some b → '\r' ∉ b) ∧
  (h.is_request = true → h.status_code = none ∧ h.status_message = none) ∧
  (h.is_request = false → h.method = none ∧ h.path = none)

/-! ## Helper lemmas -/

theorem getPair_setPair_self (k v : Str) (l : List (Str × Str)) :
    getPair k (setPair k v l) = some v := by
  induction l with
  | nil => simp [setPair, getPair]
  | cons kv rest ih =>
    by_cases hk : kv.1 = k
    · simp [setPair, getPair, hk]
    · simp [setPair, getPair, hk, ih]

theorem getPair_setPair_ne (k k' v : Str) (l : List (Str × Str)) (hk : k' ≠ k) :
    getPair k (setPair k' v l) = getPair k l := by
  induction l with
  | nil => simp [setPair, getPair, hk]
  | cons kv rest ih =>
    by_cases h1 : kv.1 = k'
    · simp [setPair, getPair, h1, hk]
    · by_cases h2 : kv.1 = k <;> simp [setPair, getPair, h1, h2, ih, Ne.symm hk]

theorem getHeader_set_header_self (h : HTTPHeader) (k v : Str) :
    getHeader (set_header h k v) k = some v := by
  simp [getHeader, set_header, getPair_setPair_self]

theorem getHeader_set_header_ne (h : HTTPHeader) (k k' v : Str) (hk : k' ≠ k) :
    getHeader (set_header h k' v) k = getHeader h k := by
  simp [getHeader, set_header, getPair_setPair_ne _ _ _ _ hk]

theorem method_workerRewrite (h : HTTPHeader) :
    (workerRewrite h).method = h.method := by
  unfold workerRewrite
  dsimp only []
  split <;> rfl

theorem path_workerRewrite (h : HTTPHeader) :
    (workerRewrite h).path = h.path := by
  unfold workerRewrite
  dsimp only []
  split <;> rfl

/-! ## Claim theorems -/

/-- C9: parsing the empty string succeeds and yields a message with no
method, no target, no status code, and an empty header map. -/
theorem parse_empty_defaults :
    (parse []).method = none ∧ (parse []).path = none ∧
    (parse []).status_code = none ∧ (parse []).headers = [] :=
  ⟨rfl, rfl, rfl, rfl⟩

/-- C3: for a CONNECT request whose destination resolves, a failed
destination connect makes the client receive exactly the literal
`HTTP/1.0 502 Bad Gateway` plus a blank line and nothing else, with both
sockets closed; a successful connect makes the handshake sent to the client
exactly the literal `HTTP/1.0 200 Connection Established` plus a blank line
with no body. -/
theorem connect_handshake (h : HTTPHeader) (hp : Str × Int) (sched : List SelectEv)
    (hres : get_host_port h = .ok hp) :
    processConnection h false sched = ⟨[err502], [], true, true⟩ ∧
    (processConnection h true sched).handshake = [ok200] := by
  unfold processConnection
  rw [hres]
  constructor
  · rfl
  · simp

theorem connect_handshake_witness :
    processConnection (parse "CONNECT example.com:443 HTTP/1.1\r\nHost: example.com:443".data)
        false [] = ⟨[err502], [], true, true⟩ ∧
    (processConnection (parse "CONNECT example.com:443 HTTP/1.1\r\nHost: example.com:443".data)
        true []).handshake = [ok200] :=
  connect_handshake _ ("example.com".data, 443) [] rfl

/-- C6: a message with neither a `Host` nor a `host` header makes destination
resolution raise (`':' in None` is a `TypeError`); the non-CONNECT pipeline
then closes both sockets having sent nothing to either side, and the CONNECT
path closes both sockets with no handshake bytes sent. -/
theorem missing_host_aborts (h : HTTPHeader) (pbuf : Str) (net : NCNet)
    (ok : Bool) (sched : List SelectEv)
    (h1 : getHeader h "Host".data = none) (h2 : getHeader h "host".data = none) :
    get_host_port h = .error .typeError ∧
    processNonConnection h pbuf net = ⟨[], [], true, true, true⟩ ∧
    processConnection h ok sched = ⟨[], [], true, true⟩ := by
  have hg : get_host_port h = .error .typeError := by
    unfold get_host_port
    rw [h1, h2]
    rfl
  refine ⟨hg, ?_, ?_⟩
  · unfold processNonConnection; rw [hg]
  · unfold processConnection; rw [hg]

theorem missing_host_aborts_witness :
    get_host_port (parse "GET /x HTTP/1.1\r\nAccept: text/html".data) = .error .typeError ∧
    processNonConnection (parse "GET /x HTTP/1.1\r\nAccept: text/html".data) [] ⟨true, [], []⟩ =
      ⟨[], [], true, true, true⟩ ∧
    processConnection (parse "GET /x HTTP/1.1\r\nAccept: text/html".data) true [] =
      ⟨[], [], true, true⟩ :=
  missing_host_aborts _ [] ⟨true, [], []⟩ true [] (by decide) (by decide)

theorem splitP_length (p : Char → Bool) (l : Str) :
    (splitP p l).length = l.countP p + 1 := by
  induction l with
  | nil => simp [splitP]
  | cons c rest ih =>
    by_cases hc : p c = true
    · simp [splitP, hc, ih, List.countP_cons]
    · cases hsp : splitP p rest with
      | nil => rw [hsp] at ih; simp at ih
      | cons x xs =>
        rw [hsp] at ih
        simp only [splitP, hc, if_neg, hsp, Bool.false_eq_true]
        simp only [List.length_cons] at ih ⊢
        simp [List.countP_cons, hc, ih]

theorem splitP_all_false (p : Char → Bool) (l : Str)
    (hall : ∀ c ∈ l, p c = false) : splitP p l = [l] := by
  induction l with
  | nil => rfl
  | cons c rest ih =>
    have hc : p c = false := hall c (by simp)
    have := ih (fun c hc => hall c (by simp [hc]))
    simp [splitP, hc, this]

theorem splitP_append_sep (p : Char → Bool) (a b : Str) (c₀ : Char)
    (hall : ∀ c ∈ a, p c = false) (hc : p c₀ = true) :
    splitP p (a ++ c₀ :: b) = a :: splitP p b := by
  induction a with
  | nil => simp [splitP, hc]
  | cons c rest ih =>
    have h1 : p c = false := hall c (by simp)
    have h2 := ih (fun x hx => hall x (by simp [hx]))
    simp [splitP, h1, h2]

theorem containsChar_of_mem (c : Char) (l : Str) (h : c ∈ l) :
    containsChar c l = true :=
  List.elem_eq_true_of_mem h

/-- C10 (implicit): a `Host` value with more than one colon makes
`get_host_port` raise (`dest.split(':')` cannot be unpacked into two
values), and the connection is aborted: both pipelines close both sockets
having sent nothing. -/
theorem multi_colon_host_errors (h : HTTPHeader) (v : Str) (pbuf : Str)
    (net : NCNet) (ok : Bool) (sched : List SelectEv)
    (hv : pyOrOpt (getHeader h "Host".data) (getHeader h "host".data) = some v)
    (hcc : 2 ≤ v.countP (fun c => c = ':')) :
    get_host_port h = .error .valueError ∧
    processNonConnection h pbuf net = ⟨[], [], true, true, true⟩ ∧
    processConnection h ok sched = ⟨[], [], true, true⟩ := by
  have hmem : ':' ∈ v := by
    have hpos : 0 < v.countP (fun c => c = ':') := by omega
    obtain ⟨a, ha, hpa⟩ := List.countP_pos_iff.mp hpos
    simp only [decide_eq_true_eq] at hpa
    exact hpa ▸ ha
  have hcontains : containsChar ':' v = true := containsChar_of_mem _ _ hmem
  have hlen : 3 ≤ (splitChar ':' v).length := by
    have := splitP_length (fun c => c = ':') v
    simp only [splitChar]
    omega
  have hg : get_host_port h = .error .valueError := by
    unfold get_host_port
    rw [hv]
    simp only [hcontains, if_pos]
    obtain ⟨x, y, z, t, hsp⟩ : ∃ x y z t, splitChar ':' v = x :: y :: z :: t := by
      rcases hs : splitChar ':' v with _ | ⟨x, _ | ⟨y, _ | ⟨z, t⟩⟩⟩ <;>
        first
          | exact ⟨x, y, z, t, rfl⟩
          | (exfalso; rw [hs] at hlen; simp at hlen)
    rw [hsp]
  refine ⟨hg, ?_, ?_⟩
  · unfold processNonConnection; rw [hg]
  · unfold processConnection; rw [hg]

theorem multi_colon_host_errors_witness :
    get_host_port (parse "CONNECT x HTTP/1.1\r\nHost: [::1]:8080".data) =
      .error .valueError ∧
    processNonConnection (parse "CONNECT x HTTP/1.1\r\nHost: [::1]:8080".data) []
      ⟨true, [], []⟩ = ⟨[], [], true, true, true⟩ ∧
    processConnection (parse "CONNECT x HTTP/1.1\r\nHost: [::1]:8080".data) true [] =
      ⟨[], [], true, true⟩ :=
  multi_colon_host_errors _ "[::1]:8080".data [] ⟨true, [], []⟩ true []
    (by decide) (by decide)

/-- C5 counterexample: with `Host: example.com` (no colon) and request
target `HTTPS://example.com/`, `get_host_port` returns port 443 even though
the target does not contain the literal scheme token `https://` — the code
checks the lowercased target, so "promoted to 443 only when the request
target contains the literal `https://`" is false as stated. -/
theorem https_uppercase_counterexample :
    get_host_port
        (parse "GET HTTPS://example.com/ HTTP/1.1\r\nHost: example.com".data) =
      .ok ("example.com".data, 443) ∧
    containsSub "https://".data "HTTPS://example.com/".data = false :=
  ⟨rfl, rfl⟩

/-- C5 (amended): when the `Host` value (after the `Host`-then-`host`
Python-`or` lookup) has the form `host:port` with a single colon and a
numeric port text, `get_host_port` returns `(host, port)`; when the value
has no colon and the path is present, the port is 80, promoted to 443
exactly when the lowercased request target contains `https://`. -/
theorem host_port_resolution (h : HTTPHeader) :
    (∀ host port n,
      pyOrOpt (getHeader h "Host".data) (getHeader h "host".data) =
        some (host ++ ':' :: port) →
      ':' ∉ host → ':' ∉ port → pythonInt port = some n →
      get_host_port h = .ok (host, n)) ∧
    (∀ v p,
      pyOrOpt (getHeader h "Host".data) (getHeader h "host".data) = some v →
      containsChar ':' v = false → h.path = some p →
      get_host_port h =
        .ok (v, if containsSub "https://".data (pyLower p) then 443 else 80)) := by
  constructor
  · intro host port n hv hh hp hn
    unfold get_host_port
    rw [hv]
    have hcontains : containsChar ':' (host ++ ':' :: port) = true :=
      containsChar_of_mem _ _ (by simp)
    have hsc : splitChar ':' (host ++ ':' :: port) = [host, port] := by
      have h1 := splitP_append_sep (fun c => c = ':') host port ':'
        (fun c hc => decide_eq_false (fun he => hh (he ▸ hc))) (by simp)
      have h2 := splitP_all_false (fun c => c = ':') port
        (fun c hc => decide_eq_false (fun he => hp (he ▸ hc)))
      simp only [splitChar] at h1 ⊢
      rw [h1, h2]
    simp only [hcontains, if_true, hsc, hn]
  · intro v p hv hc hp
    unfold get_host_port
    rw [hv]
    simp only [hc, Bool.false_eq_true, if_false, hp]

theorem host_port_resolution_witness :
    get_host_port (parse "GET http://e/ HTTP/1.1\r\nHost: example.com:8443".data) =
      .ok ("example.com".data, 8443) ∧
    get_host_port (parse "GET https://e/x HTTP/1.1\r\nHost: example.com".data) =
      .ok ("example.com".data,
        if containsSub "https://".data (pyLower "https://e/x".data) then 443 else 80) :=
  ⟨(host_port_resolution _).1 "example.com".data "8443".data 8443
      (by decide) (by decide) (by decide) (by decide),
    (host_port_resolution _).2 "example.com".data "https://e/x".data
      (by decide) (by decide) (by decide)⟩

/-- C8 counterexample: a request that never carried `Proxy-Connection` is
nevertheless forwarded with `Proxy-Connection: close` (line 256 sets it
unconditionally), and a response that never carried it likewise (line 304) —
so "forced ... exactly when the header was originally present" is false. -/
theorem proxy_connection_counterexample :
    getHeader (parse "GET http://example.com/page HTTP/1.1\r\nHost: example.com".data)
      "Proxy-Connection".data = none ∧
    getHeader (forwardedReqHeader (workerRewrite
      (parse "GET http://example.com/page HTTP/1.1\r\nHost: example.com".data)))
      "Proxy-Connection".data = some "close".data ∧
    containsSub "\r\nProxy-Connection: close\r\n".data
      (generate (forwardedReqHeader (workerRewrite
        (parse "GET http://example.com/page HTTP/1.1\r\nHost: example.com".data)))) = true ∧
    getHeader (parse "HTTP/1.1 200 OK".data) "Proxy-Connection".data = none ∧
    getHeader (forwardedRespHeader (parse "HTTP/1.1 200 OK".data))
      "Proxy-Connection".data = some "close".data := by
  refine ⟨rfl, rfl, ?_, rfl, rfl⟩
  decide

/-- C8 (amended): on the non-CONNECT path the forwarded request header and
the forwarded response header always carry `Proxy-Connection: close`,
whether or not the original message carried the header; only the worker's
pre-dispatch rewrite is conditional, leaving a message without
`Proxy-Connection` unchanged in that respect. -/
theorem proxy_connection_amended (h hr : HTTPHeader) :
    getHeader (forwardedReqHeader h) "Proxy-Connection".data = some "close".data ∧
    getHeader (forwardedRespHeader hr) "Proxy-Connection".data = some "close".data ∧
    (getHeader h "Proxy-Connection".data = none →
      getHeader (workerRewrite h) "Proxy-Connection".data = none) := by
  refine ⟨getHeader_set_header_self _ _ _, getHeader_set_header_self _ _ _, ?_⟩
  intro hn
  unfold workerRewrite
  dsimp only []
  have hpc : getHeader (set_version (set_header h "Connection".data "close".data)
      "HTTP/1.0".data) "Proxy-Connection".data = none := by
    have hne := getHeader_set_header_ne h "Proxy-Connection".data "Connection".data
      "close".data (by decide)
    simpa [getHeader, set_version, set_header] using hne.trans hn
  rw [hpc]
  simpa [truthyOpt] using hpc

theorem proxy_connection_amended_witness :
    getHeader (workerRewrite (parse "GET /x HTTP/1.1\r\nHost: a".data))
      "Proxy-Connection".data = none :=
  (proxy_connection_amended (parse "GET /x HTTP/1.1\r\nHost: a".data)
    (parse "HTTP/1.1 200 OK".data)).2.2 (by decide)

/-- C4: evaluation of the code at the failing input.  A client request
terminated by LF-LF only (`GET / HTTP/1.0\n\n`) satisfies the header-read
loop (which accepts `\n\n`), but the subsequent split uses `\r\n\r\n`
unconditionally (the `delim = b"\n\n"` reassignment inside the loop is
unreachable), so `packet_buf[1]` raises an uncaught `IndexError` and the
worker dies with the client socket left open and never handed to
`cleanup_socket` — contradicting the claim that every termination closes
every socket the task opened. -/
theorem worker_lf_crash :
    worker [RecvEvent.data ("GET / HTTP/1.0\n\n".data)] ⟨true, [], [], []⟩ = .crash ∧
    workerClientClosed
      (worker [RecvEvent.data ("GET / HTTP/1.0\n\n".data)] ⟨true, [], [], []⟩) = false :=
  ⟨rfl, rfl⟩

theorem relayRun_trace_good (s : List SelectEv) :
    GoodTrace (relayRun s).1 ∧
    ((relayRun s).2 = true ↔ RelayAct.closeBoth ∈ (relayRun s).1) := by
  induction s with
  | nil => exact ⟨GoodTrace.nil, by simp [relayRun]⟩
  | cons ev rest ih =>
    rcases hrr : relayRun rest with ⟨t, fin⟩
    rw [hrr] at ih
    rcases ev with ⟨_ | ⟨_ | ⟨c, cs⟩⟩, _ | ⟨_ | ⟨e, es⟩⟩⟩
    · simpa [relayRun, hrr] using ih
    · exact ⟨by simpa [relayRun] using GoodTrace.eofDest, by simp [relayRun]⟩
    · refine ⟨?_, ?_⟩
      · simpa [relayRun, hrr] using GoodTrace.fwdDest e es t ih.1
      · simp [relayRun, hrr, ih.2]
    · exact ⟨by simpa [relayRun] using GoodTrace.eofClient, by simp [relayRun]⟩
    · exact ⟨by simpa [relayRun] using GoodTrace.eofClient, by simp [relayRun]⟩
    · exact ⟨by simpa [relayRun] using GoodTrace.eofClient, by simp [relayRun]⟩
    · refine ⟨?_, ?_⟩
      · simpa [relayRun, hrr] using GoodTrace.fwdClient c cs t ih.1
      · simp [relayRun, hrr, ih.2]
    · refine ⟨?_, ?_⟩
      · simpa [relayRun, hrr] using
          GoodTrace.fwdClient c cs _ (by simpa using GoodTrace.eofDest)
      · simp [relayRun, hrr]
    · refine ⟨?_, ?_⟩
      · simpa [relayRun, hrr] using
          GoodTrace.fwdClient c cs _ (GoodTrace.fwdDest e es t ih.1)
      · simp [relayRun, hrr, ih.2]

/-- C7: the relay loop is a pure byte pump — its trace consists of blocks
that read a nonempty chunk from one socket and immediately write that same
chunk, unmodified, to the other socket (nothing inspected, altered, dropped,
or fabricated), and a zero-length read on either side is immediately
followed by closing both sockets and terminating the loop; the loop
terminates exactly when such a close happens, and then
`process_connection_request` reports both sockets closed. -/
theorem relay_pure_pump (sched : List SelectEv) :
    GoodTrace (relayRun sched).1 ∧
    ((relayRun sched).2 = true ↔ RelayAct.closeBoth ∈ (relayRun sched).1) ∧
    (∀ h hp, get_host_port h = .ok hp →
      (processConnection h true sched).trace = (relayRun sched).1 ∧
      (processConnection h true sched).clientClosed = (relayRun sched).2 ∧
      (processConnection h true sched).destClosed = (relayRun sched).2) := by
  refine ⟨(relayRun_trace_good sched).1, (relayRun_trace_good sched).2, ?_⟩
  intro h hp hres
  unfold processConnection
  rw [hres]
  rcases hrr : relayRun sched with ⟨t, fin⟩
  simp [hrr]

theorem relay_pure_pump_witness :
    (processConnection (parse "CONNECT a:1 HTTP/1.1\r\nHost: a:1".data) true
      [⟨some "x".data, none⟩, ⟨none, some []⟩]).trace =
      (relayRun [⟨some "x".data, none⟩, ⟨none, some []⟩]).1 ∧
    (processConnection (parse "CONNECT a:1 HTTP/1.1\r\nHost: a:1".data) true
      [⟨some "x".data, none⟩, ⟨none, some []⟩]).clientClosed =
      (relayRun [⟨some "x".data, none⟩, ⟨none, some []⟩]).2 :=
  ⟨((relay_pure_pump _).2.2 (parse "CONNECT a:1 HTTP/1.1\r\nHost: a:1".data)
      ("a".data, 1) rfl).1,
    ((relay_pure_pump _).2.2 (parse "CONNECT a:1 HTTP/1.1\r\nHost: a:1".data)
      ("a".data, 1) rfl).2.1⟩

theorem splitOnceSub_http (R : Str) :
    splitOnceSub "://".data ("http://".data ++ R) = ("http".data, some R) := by
  show splitOnceSub "://".data ('h' :: 't' :: 't' :: 'p' :: ':' :: '/' :: '/' :: R) = _
  simp [splitOnceSub, leadsWith]

theorem dropWhile_ne_slash (host tail : Str) (hh : '/' ∉ host) :
    (host ++ '/' :: tail).dropWhile (fun c => c ≠ '/') = '/' :: tail := by
  induction host with
  | nil =>
    rw [List.nil_append, List.dropWhile_cons, if_neg (by simp)]
  | cons c rest ih =>
    have hc : c ≠ '/' := fun he => hh (he ▸ List.mem_cons_self c rest)
    rw [List.cons_append, List.dropWhile_cons, if_pos (by simp [hc])]
    exact ih (fun hm => hh (List.mem_cons_of_mem c hm))

theorem change_path_http (h : HTTPHeader) (host tail : Str)
    (hp : h.path = some ("http://".data ++ (host ++ '/' :: tail)))
    (hh : '/' ∉ host) :
    (change_path_to_relative h).path = some ('/' :: tail) := by
  unfold change_path_to_relative
  rw [hp]
  dsimp only []
  rw [splitOnceSub_http (host ++ '/' :: tail)]
  dsimp only []
  rw [dropWhile_ne_slash host tail hh]

theorem forwardedReqHeader_fields (h : HTTPHeader) :
    (forwardedReqHeader h).version = "HTTP/1.0".data ∧
    getHeader (forwardedReqHeader h) "Connection".data = some "close".data ∧
    (forwardedReqHeader h).path = (change_path_to_relative h).path := by
  refine ⟨rfl, ?_, rfl⟩
  have h1 := getHeader_set_header_ne
    (set_version (set_header (change_path_to_relative h) "Connection".data "close".data)
      "HTTP/1.0".data)
    "Connection".data "Proxy-Connection".data "close".data (by decide)
  exact h1.trans (getHeader_set_header_self _ _ _)

theorem forwardedRespHeader_fields (h : HTTPHeader) :
    (forwardedRespHeader h).version = "HTTP/1.0".data ∧
    getHeader (forwardedRespHeader h) "Connection".data = some "close".data := by
  refine ⟨rfl, ?_⟩
  have h1 := getHeader_set_header_ne
    (set_header (set_version h "HTTP/1.0".data) "Connection".data "close".data)
    "Connection".data "Proxy-Connection".data "close".data (by decide)
  exact h1.trans (getHeader_set_header_self _ _ _)

theorem ncRespond_fields (td : List Str) (rh : HTTPHeader) (rleft : Str)
    (evs : List RecvEvent) :
    (ncRespond td rh rleft evs).toDest = td ∧
    (ncRespond td rh rleft evs).toClient.head? = some (generate rh) := by
  rcases hpr : payloadRelay evs with ⟨chunks, r⟩
  unfold ncRespond
  dsimp only []
  rw [hpr]
  refine ⟨?_, ?_⟩ <;> (repeat' split) <;> simp

theorem nc_result (h : HTTPHeader) (pbuf : Str) (cevs devs : List RecvEvent)
    (hp : Str × Int) (respBytes respRaw respLeft : Str)
    (hres : get_host_port h = .ok hp) (hcl : cevs = [])
    (hresp : devs = [RecvEvent.data respBytes])
    (hrsplit : splitOnceSub "\r\n\r\n".data respBytes = (respRaw, some respLeft)) :
    (processNonConnection h pbuf ⟨true, cevs, devs⟩).toDest =
      [generate (forwardedReqHeader h) ++ pbuf] ∧
    (processNonConnection h pbuf ⟨true, cevs, devs⟩).toClient.head? =
      some (generate (forwardedRespHeader (parse respRaw))) := by
  subst hcl hresp
  have hnn : respBytes ≠ [] := by
    intro he
    subst he
    simp [splitOnceSub] at hrsplit
  unfold processNonConnection
  rw [hres]
  dsimp only []
  rw [if_pos rfl]
  have hbody :
      (if truthyOpt (getHeader (forwardedReqHeader h) "Content-Length".data)
          || truthyOpt (getHeader (forwardedReqHeader h) "Transfer-Encoding".data) then
        bodyRelay []
      else ([], false)) = (([] : List Str), false) := by
    split <;> rfl
  rw [hbody]
  dsimp only []
  have haccum : accumResp [] [RecvEvent.data respBytes] = (respBytes, false, []) := by
    cases respBytes with
    | nil => exact absurd rfl hnn
    | cons c cs => simp [accumResp, containsSub, splitOnceSub]
  rw [haccum]
  dsimp only []
  rw [hrsplit]
  exact ncRespond_fields [generate (forwardedReqHeader h) ++ pbuf]
    (forwardedRespHeader (parse respRaw)) respLeft []

/-- C1 (spec-modelled `change_path_to_relative`): for a non-CONNECT request
in absolute form whose header block the worker reads in full, the proxy
sends the destination exactly one header write consisting of the rewritten
header plus the read-ahead bytes, where the rewritten header has origin-form
target, version `HTTP/1.0` and `Connection: close`; and the first bytes sent
back to the client are the destination's response header rewritten to
`HTTP/1.0` with `Connection: close`. -/
theorem forwarding_rewrites (reqBytes raw leftover host tail mth : Str)
    (hp : Str × Int) (net : WorkerNet) (respBytes respRaw respLeft : Str)
    (hsplit : splitOnceSub "\r\n\r\n".data reqBytes = (raw, some leftover))
    (hmeth : (parse raw).method = some mth)
    (hnc : mth ≠ "CONNECT".data)
    (hpath : (parse raw).path = some ("http://".data ++ (host ++ '/' :: tail)))
    (hh : '/' ∉ host)
    (hres : get_host_port (workerRewrite (parse raw)) = .ok hp)
    (hok : net.connectOk = true) (hcl : net.clientEvs = [])
    (hresp : net.destEvs = [RecvEvent.data respBytes])
    (hrsplit : splitOnceSub "\r\n\r\n".data respBytes = (respRaw, some respLeft)) :
    ∃ r : NCResult,
      worker [RecvEvent.data reqBytes] net = .didForward r ∧
      r.toDest = [generate (forwardedReqHeader (workerRewrite (parse raw))) ++ leftover] ∧
      (forwardedReqHeader (workerRewrite (parse raw))).path = some ('/' :: tail) ∧
      (forwardedReqHeader (workerRewrite (parse raw))).version = "HTTP/1.0".data ∧
      getHeader (forwardedReqHeader (workerRewrite (parse raw))) "Connection".data =
        some "close".data ∧
      r.toClient.head? = some (generate (forwardedRespHeader (parse respRaw))) ∧
      (forwardedRespHeader (parse respRaw)).version = "HTTP/1.0".data ∧
      getHeader (forwardedRespHeader (parse respRaw)) "Connection".data =
        some "close".data := by
  have hcont : containsSub "\r\n\r\n".data reqBytes = true := by
    simp [containsSub, hsplit]
  have hworker : worker [RecvEvent.data reqBytes] net =
      .didForward (processNonConnection (workerRewrite (parse raw)) leftover
        ⟨net.connectOk, net.clientEvs, net.destEvs⟩) := by
    unfold worker
    have hread0 : readHeaderLoop [] [RecvEvent.data reqBytes] =
        readHeaderLoop reqBytes [] := rfl
    have hread1 : readHeaderLoop reqBytes [] = .done reqBytes := by
      unfold readHeaderLoop
      rw [hcont]
      simp
    rw [hread0.trans hread1]
    dsimp only []
    rw [hsplit]
    dsimp only []
    have hm : (workerRewrite (parse raw)).method = some mth :=
      (method_workerRewrite _).trans hmeth
    rw [if_neg (by rw [hm]; intro he; exact hnc (Option.some.injEq _ _ ▸ he))]
  rcases net with ⟨cok, sched, cevs, devs⟩
  simp only at hok hcl hresp
  subst hok
  have hnr := nc_result (workerRewrite (parse raw)) leftover cevs devs hp
    respBytes respRaw respLeft hres hcl hresp hrsplit
  refine ⟨processNonConnection (workerRewrite (parse raw)) leftover ⟨true, cevs, devs⟩,
    hworker, hnr.1, ?_, (forwardedReqHeader_fields _).1, (forwardedReqHeader_fields _).2.1,
    hnr.2, (forwardedRespHeader_fields _).1, (forwardedRespHeader_fields _).2⟩
  rw [(forwardedReqHeader_fields _).2.2]
  exact change_path_http _ host tail ((path_workerRewrite _).trans hpath) hh

theorem forwarding_rewrites_witness :
    ∃ r : NCResult,
      worker [RecvEvent.data
          "GET http://example.com/page HTTP/1.1\r\nHost: example.com\r\n\r\n".data]
        ⟨true, [], [], [RecvEvent.data "HTTP/1.1 200 OK\r\n\r\nhi".data]⟩ =
        .didForward r ∧
      r.toDest = [generate (forwardedReqHeader (workerRewrite
        (parse "GET http://example.com/page HTTP/1.1\r\nHost: example.com".data))) ++ []] ∧
      (forwardedReqHeader (workerRewrite
        (parse "GET http://example.com/page HTTP/1.1\r\nHost: example.com".data))).path =
        some ('/' :: "page".data) ∧
      (forwardedReqHeader (workerRewrite
        (parse "GET http://example.com/page HTTP/1.1\r\nHost: example.com".data))).version =
        "HTTP/1.0".data ∧
      getHeader (forwardedReqHeader (workerRewrite
        (parse "GET http://example.com/page HTTP/1.1\r\nHost: example.com".data)))
        "Connection".data = some "close".data ∧
      r.toClient.head? = some (generate (forwardedRespHeader
        (parse "HTTP/1.1 200 OK".data))) ∧
      (forwardedRespHeader (parse "HTTP/1.1 200 OK".data)).version = "HTTP/1.0".data ∧
      getHeader (forwardedRespHeader (parse "HTTP/1.1 200 OK".data)) "Connection".data =
        some "close".data :=
  forwarding_rewrites
    "GET http://example.com/page HTTP/1.1\r\nHost: example.com\r\n\r\n".data
    "GET http://example.com/page HTTP/1.1\r\nHost: example.com".data
    [] "example.com".data "page".data "GET".data ("example.com".data, 80)
    ⟨true, [], [], [RecvEvent.data "HTTP/1.1 200 OK\r\n\r\nhi".data]⟩
    "HTTP/1.1 200 OK\r\n\r\nhi".data "HTTP/1.1 200 OK".data "hi".data
    (by decide) (by decide) (by decide) (by decide) (by decide) rfl rfl rfl rfl (by decide)

/-! ## Lemmas on the string primitives (towards the round-trip claim) -/

theorem dropWhile_head_not (p : Char → Bool) (l : Str) (c : Char) (t : Str)
    (h : l.dropWhile p = c :: t) : p c = false := by
  induction l with
  | nil => simp [List.dropWhile] at h
  | cons x xs ih =>
    rw [List.dropWhile_cons] at h
    by_cases hx : p x = true
    · rw [if_pos hx] at h
      exact ih h
    · rw [if_neg hx] at h
      cases h
      simpa using hx

theorem dropWhile_eq_self_of_head (p : Char → Bool) (l : Str)
    (h : ∀ c t, l = c :: t → p c = false) : l.dropWhile p = l := by
  cases l with
  | nil => rfl
  | cons c t => rw [List.dropWhile_cons, if_neg (by simp [h c t rfl])]

theorem trimRight_last_not (l : Str) (d : Char) :
    ∀ a, trimRight l = a ++ [d] → pyWS d = false := by
  induction l with
  | nil => intro a h; simp [trimRight] at h
  | cons c rest ih =>
    intro a h
    simp only [trimRight] at h
    cases hr : trimRight rest with
    | nil =>
      rw [hr] at h
      by_cases hc : pyWS c = true
      · rw [if_pos hc] at h
        exact absurd h.symm (List.append_ne_nil_of_right_ne_nil a (by simp))
      · rw [if_neg hc] at h
        have : d = c := by
          have hlen : a.length + 1 = 1 := by
            have := congrArg List.length h
            simpa using this.symm
          have ha : a = [] := List.eq_nil_of_length_eq_zero (by omega)
          subst ha
          simpa using h.symm
        simpa [this] using hc
    | cons r0 rs =>
      rw [hr] at h
      cases a with
      | nil =>
        simp only [List.nil_append] at h
        cases h
      | cons a0 as =>
        simp only [List.cons_append, List.cons.injEq] at h
        exact ih as (hr.trans h.2)

theorem trimRight_eq_self (l : Str) (h : ∀ a d, l = a ++ [d] → pyWS d = false) :
    trimRight l = l := by
  induction l with
  | nil => rfl
  | cons c rest ih =>
    have hr : trimRight rest = rest :=
      ih (fun a d hd => h (c :: a) d (by rw [hd]; rfl))
    simp only [trimRight, hr]
    cases rest with
    | nil =>
      have := h [] c rfl
      simp [this]
    | cons r0 rs => rfl

theorem trimRight_head (l : Str) (c : Char) (t : Str) (h : trimRight l = c :: t) :
    ∃ t', l = c :: t' := by
  cases l with
  | nil => simp [trimRight] at h
  | cons x xs =>
    simp only [trimRight] at h
    cases hr : trimRight xs with
    | nil =>
      rw [hr] at h
      by_cases hx : pyWS x = true
      · rw [if_pos hx] at h
        simp at h
      · rw [if_neg hx] at h
        exact ⟨xs, by cases h; rfl⟩
    | cons r0 rs =>
      rw [hr] at h
      exact ⟨xs, by cases h; rfl⟩

theorem trimRight_subset (l : Str) : ∀ c ∈ trimRight l, c ∈ l := by
  induction l with
  | nil => simp [trimRight]
  | cons x xs ih =>
    intro c hc
    simp only [trimRight] at hc
    cases hr : trimRight xs with
    | nil =>
      rw [hr] at hc
      by_cases hx : pyWS x = true
      · rw [if_pos hx] at hc
        simp at hc
      · rw [if_neg hx] at hc
        simp at hc
        simp [hc]
    | cons r0 rs =>
      rw [hr] at hc
      rcases List.mem_cons.mp hc with h1 | h2
      · simp [h1]
      · exact List.mem_cons_of_mem x (ih c (hr ▸ h2))

theorem trimRight_append_ws (a : Str) (d : Char) (hd : pyWS d = true) :
    trimRight (a ++ [d]) = trimRight a := by
  induction a with
  | nil => simp [trimRight, hd]
  | cons c rest ih =>
    simp only [List.cons_append, trimRight, List.append_eq]
    rw [ih]

theorem trimWS_stripped (l : Str) : stripped (trimWS l) := by
  constructor
  · intro c t h
    obtain ⟨t', ht⟩ := trimRight_head (trimLeft l) c t h
    exact dropWhile_head_not pyWS l c t' ht
  · intro a d h
    exact trimRight_last_not (trimLeft l) d a h

theorem trimWS_eq_self (l : Str) (h : stripped l) : trimWS l = l := by
  unfold trimWS trimLeft
  rw [dropWhile_eq_self_of_head pyWS l h.1]
  exact trimRight_eq_self l h.2

theorem trimWS_cons_ws (c : Char) (l : Str) (hc : pyWS c = true) :
    trimWS (c :: l) = trimWS l := by
  unfold trimWS trimLeft
  rw [List.dropWhile_cons, if_pos (by simp [hc])]

theorem trimWS_subset (l : Str) : ∀ c ∈ trimWS l, c ∈ l := by
  intro c hc
  have h1 : c ∈ trimLeft l := trimRight_subset _ c hc
  exact (List.dropWhile_sublist pyWS).subset h1

theorem trimWS_nil : trimWS [] = [] := rfl

theorem splitFirstChar_append (sep : Char) (a b : Str) (ha : sep ∉ a) :
    splitFirstChar sep (a ++ sep :: b) = (a, some b) := by
  induction a with
  | nil => simp [splitFirstChar]
  | cons c rest ih =>
    have hc : c ≠ sep := fun he => ha (he ▸ List.mem_cons_self c rest)
    have := ih (fun hm => ha (List.mem_cons_of_mem c hm))
    simp [splitFirstChar, hc, this]

theorem splitFirstChar_eq (sep : Char) (l : Str) :
    ∀ a b, splitFirstChar sep l = (a, some b) → l = a ++ sep :: b ∧ sep ∉ a := by
  induction l with
  | nil => intro a b h; simp [splitFirstChar] at h
  | cons c rest ih =>
    intro a b h
    simp only [splitFirstChar] at h
    by_cases hc : c = sep
    · rw [if_pos hc] at h
      simp only [Prod.mk.injEq, Option.some.injEq] at h
      obtain ⟨h1, h2⟩ := h
      subst h1
      subst h2
      subst hc
      simp
    · rw [if_neg hc] at h
      rcases hsp : splitFirstChar sep rest with ⟨a', ob⟩
      rw [hsp] at h
      simp only [Prod.mk.injEq] at h
      obtain ⟨h1, h2⟩ := h
      subst h1
      cases ob with
      | none => cases h2
      | some b'' =>
        have hb : b'' = b := by simpa using h2
        subst hb
        obtain ⟨he, hn⟩ := ih a' b'' hsp
        refine ⟨by rw [List.cons_append, he], ?_⟩
        intro hm
        rcases List.mem_cons.mp hm with h1 | h2
        · exact hc h1.symm
        · exact hn h2

theorem splitFirstChar_fst_subset (sep : Char) (l : Str) :
    ∀ c ∈ (splitFirstChar sep l).1, c ∈ l := by
  induction l with
  | nil => simp [splitFirstChar]
  | cons x xs ih =>
    intro c hc
    simp only [splitFirstChar] at hc
    by_cases hx : x = sep
    · rw [if_pos hx] at hc
      simp at hc
    · rw [if_neg hx] at hc
      rcases hsp : splitFirstChar sep xs with ⟨a', b'⟩
      rw [hsp] at hc
      simp only at hc
      rcases List.mem_cons.mp hc with h1 | h2
      · simp [h1]
      · exact List.mem_cons_of_mem x (ih c (by rw [hsp]; exact h2))

theorem leadsWith_append_right (pat v r : Str) (h : leadsWith pat v = true) :
    leadsWith pat (v ++ r) = true := by
  induction pat generalizing v with
  | nil => rfl
  | cons p ps ih =>
    cases v with
    | nil => simp [leadsWith] at h
    | cons c cs =>
      simp only [leadsWith, Bool.and_eq_true] at h ⊢
      exact ⟨h.1, ih cs h.2⟩

theorem leadsWith_of_append_sep (pat t r : Str) (sep : Char)
    (hpat : ∀ c ∈ pat, pyWS c = false) (ht : ∀ c ∈ t, pyWS c = false)
    (hsep : pyWS sep = true) (h : leadsWith pat (t ++ sep :: r) = true) :
    leadsWith pat t = true := by
  induction pat generalizing t with
  | nil => rfl
  | cons p ps ih =>
    cases t with
    | nil =>
      simp only [List.nil_append, leadsWith, Bool.and_eq_true, beq_iff_eq] at h
      have := hpat p (by simp)
      rw [h.1] at this
      rw [this] at hsep
      cases hsep
    | cons c cs =>
      simp only [List.cons_append, leadsWith, Bool.and_eq_true] at h ⊢
      exact ⟨h.1, ih cs (fun x hx => hpat x (by simp [hx]))
        (fun x hx => ht x (by simp [hx])) h.2⟩

theorem leadsWith_takeWhile (pat l : Str)
    (hpat : ∀ c ∈ pat, pyWS c = false) (h : leadsWith pat l = true) :
    leadsWith pat (l.takeWhile notWS) = true := by
  induction pat generalizing l with
  | nil => rfl
  | cons p ps ih =>
    cases l with
    | nil => simp [leadsWith] at h
    | cons c cs =>
      simp only [leadsWith, Bool.and_eq_true, beq_iff_eq] at h
      have hcw : notWS c = true := by
        have := hpat p (by simp)
        rw [h.1] at this
        simp [notWS, this]
      rw [List.takeWhile_cons, if_pos hcw]
      simp only [leadsWith, Bool.and_eq_true, beq_iff_eq]
      exact ⟨h.1, ih cs (fun x hx => hpat x (by simp [hx])) h.2⟩

theorem replaceCRLF_no_cr (l : Str) (h : '\r' ∉ l) : replaceCRLF l = l := by
  induction l with
  | nil => rfl
  | cons c rest ih =>
    have hc : c ≠ '\r' := fun he => h (he ▸ List.mem_cons_self c rest)
    have hr := ih (fun hm => h (List.mem_cons_of_mem c hm))
    cases rest with
    | nil => rfl
    | cons d t =>
      rw [replaceCRLF, if_neg (fun hx => hc hx.1), hr]

theorem replaceCRLF_append_crlf (x z : Str) (h : '\r' ∉ x) :
    replaceCRLF (x ++ '\r' :: '\n' :: z) = x ++ '\n' :: replaceCRLF z := by
  induction x with
  | nil =>
    rw [List.nil_append, replaceCRLF, if_pos ⟨rfl, rfl⟩, List.nil_append]
  | cons c x' ih =>
    have hc : c ≠ '\r' := fun he => h (he ▸ List.mem_cons_self c x')
    have hx := ih (fun hm => h (List.mem_cons_of_mem c hm))
    cases x' with
    | nil =>
      simp only [List.nil_append] at hx
      rw [List.cons_append, List.nil_append, replaceCRLF,
        if_neg (by rintro ⟨_, h2⟩; cases h2), hx]
      rfl
    | cons d t =>
      simp only [List.cons_append] at hx ⊢
      rw [replaceCRLF, if_neg (fun hy => hc hy.1), hx]

theorem mapCR_no_cr (l : Str) (h : '\r' ∉ l) : mapCR l = l := by
  induction l with
  | nil => rfl
  | cons c rest ih =>
    have hc : c ≠ '\r' := fun he => h (he ▸ List.mem_cons_self c rest)
    have hr := ih (fun hm => h (List.mem_cons_of_mem c hm))
    simp [mapCR, hc] at hr ⊢
    exact hr

theorem mapCR_out_no_cr (l : Str) : '\r' ∉ mapCR l := by
  intro hm
  simp only [mapCR, List.mem_map] at hm
  obtain ⟨x, _, hx⟩ := hm
  by_cases h : x = '\r'
  · rw [if_pos h] at hx
    cases hx
  · rw [if_neg h] at hx
    exact h hx

theorem mapCR_append (a b : Str) : mapCR (a ++ b) = mapCR a ++ mapCR b :=
  List.map_append _ a b

theorem normalizeNL_joinCRLF (ls : List Str) (h : ∀ x ∈ ls, '\r' ∉ x) :
    normalizeNL (joinCRLF ls) = joinNL ls := by
  induction ls with
  | nil => rfl
  | cons x xs ih =>
    cases xs with
    | nil =>
      show normalizeNL x = x
      unfold normalizeNL
      rw [replaceCRLF_no_cr x (h x (by simp)), mapCR_no_cr x (h x (by simp))]
    | cons y t =>
      show normalizeNL (x ++ '\r' :: '\n' :: joinCRLF (y :: t)) =
        x ++ '\n' :: joinNL (y :: t)
      unfold normalizeNL
      rw [replaceCRLF_append_crlf _ _ (h x (by simp)), mapCR_append,
        mapCR_no_cr x (h x (by simp))]
      have hmap : mapCR ('\n' :: replaceCRLF (joinCRLF (y :: t))) =
          '\n' :: mapCR (replaceCRLF (joinCRLF (y :: t))) := rfl
      rw [hmap]
      have ihh := ih (fun z hz => h z (by simp [hz]))
      unfold normalizeNL at ihh
      rw [ihh]

theorem splitP_ne_nil (p : Char → Bool) (l : Str) : splitP p l ≠ [] := by
  intro h
  have := splitP_length p l
  rw [h] at this
  simp at this

theorem splitP_pieces_no (p : Char → Bool) (l : Str) :
    ∀ x ∈ splitP p l, ∀ c ∈ x, p c = false := by
  induction l with
  | nil =>
    intro x hx c hc
    simp only [splitP, List.mem_singleton] at hx
    subst hx
    simp at hc
  | cons a rest ih =>
    intro x hx c hc
    by_cases ha : p a = true
    · rw [splitP, if_pos ha] at hx
      rcases List.mem_cons.mp hx with h1 | h2
      · subst h1; simp at hc
      · exact ih x h2 c hc
    · rw [splitP, if_neg ha] at hx
      rcases hsp : splitP p rest with _ | ⟨h0, t0⟩
      · exact absurd hsp (splitP_ne_nil _ _)
      · rw [hsp] at hx
        rcases List.mem_cons.mp hx with h1 | h2
        · subst h1
          rcases List.mem_cons.mp hc with h3 | h4
          · subst h3; simpa using ha
          · exact ih h0 (by rw [hsp]; simp) c h4
        · exact ih x (by rw [hsp]; simp [h2]) c hc

theorem splitP_pieces_subset (p : Char → Bool) (l : Str) :
    ∀ x ∈ splitP p l, ∀ c ∈ x, c ∈ l := by
  induction l with
  | nil =>
    intro x hx c hc
    simp only [splitP, List.mem_singleton] at hx
    subst hx
    simp at hc
  | cons a rest ih =>
    intro x hx c hc
    by_cases ha : p a = true
    · rw [splitP, if_pos ha] at hx
      rcases List.mem_cons.mp hx with h1 | h2
      · subst h1; simp at hc
      · exact List.mem_cons_of_mem a (ih x h2 c hc)
    · rw [splitP, if_neg ha] at hx
      rcases hsp : splitP p rest with _ | ⟨h0, t0⟩
      · exact absurd hsp (splitP_ne_nil _ _)
      · rw [hsp] at hx
        rcases List.mem_cons.mp hx with h1 | h2
        · subst h1
          rcases List.mem_cons.mp hc with h3 | h4
          · simp [h3]
          · exact List.mem_cons_of_mem a (ih h0 (by rw [hsp]; simp) c h4)
        · exact List.mem_cons_of_mem a (ih x (by rw [hsp]; simp [h2]) c hc)

theorem splitP_head (p : Char → Bool) (l : Str) :
    ∃ t, splitP p l = l.takeWhile (fun c => !p c) :: t := by
  induction l with
  | nil => exact ⟨[], rfl⟩
  | cons a rest ih =>
    by_cases ha : p a = true
    · refine ⟨splitP p rest, ?_⟩
      rw [splitP, if_pos ha, List.takeWhile_cons, if_neg (by simp [ha])]
    · obtain ⟨t, ht⟩ := ih
      refine ⟨t, ?_⟩
      rw [splitP, if_neg ha, ht, List.takeWhile_cons, if_pos (by simp [ha])]

theorem splitChar_joinNL_append (ls : List Str) (x : Str)
    (h : ∀ y ∈ ls, '\n' ∉ y) :
    splitChar '\n' (joinNL (ls ++ [x])) = ls ++ splitChar '\n' x := by
  induction ls with
  | nil => rfl
  | cons y ys ih =>
    have hj : joinNL (y :: (ys ++ [x])) = y ++ '\n' :: joinNL (ys ++ [x]) := by
      cases hys : ys ++ [x] with
      | nil => exact absurd hys (by simp)
      | cons a b => rfl
    rw [List.cons_append, hj]
    have hstep : splitChar '\n' (y ++ '\n' :: joinNL (ys ++ [x])) =
        y :: splitChar '\n' (joinNL (ys ++ [x])) :=
      splitP_append_sep _ y _ '\n'
        (fun c hc => decide_eq_false (fun he => (h y (by simp)) (he ▸ hc)))
        (by simp)
    rw [hstep, ih (fun z hz => h z (by simp [hz])), List.cons_append]

theorem joinNL_mem (ls : List Str) :
    ∀ c ∈ joinNL ls, c = '\n' ∨ ∃ x ∈ ls, c ∈ x := by
  induction ls with
  | nil => intro c hc; simp [joinNL] at hc
  | cons y ys ih =>
    intro c hc
    cases ys with
    | nil => exact Or.inr ⟨y, by simp, hc⟩
    | cons z t =>
      have hj : joinNL (y :: z :: t) = y ++ '\n' :: joinNL (z :: t) := rfl
      rw [hj] at hc
      rcases List.mem_append.mp hc with h1 | h2
      · exact Or.inr ⟨y, by simp, h1⟩
      · rcases List.mem_cons.mp h2 with h3 | h4
        · exact Or.inl h3
        · rcases ih c h4 with h5 | ⟨x, hx1, hx2⟩
          · exact Or.inl h5
          · exact Or.inr ⟨x, by simp [hx1], hx2⟩

theorem takeWhile_append_stop (q : Char → Bool) (t r : Str) (c₀ : Char)
    (ht : ∀ c ∈ t, q c = true) (hc : q c₀ = false) :
    (t ++ c₀ :: r).takeWhile q = t := by
  induction t with
  | nil => rw [List.nil_append, List.takeWhile_cons, if_neg (by simp [hc])]
  | cons a as ih =>
    rw [List.cons_append, List.takeWhile_cons, if_pos (by simp [ht a (by simp)])]
    rw [ih (fun c hcm => ht c (by simp [hcm]))]

theorem dropWhile_append_stop (q : Char → Bool) (t r : Str) (c₀ : Char)
    (ht : ∀ c ∈ t, q c = true) (hc : q c₀ = false) :
    (t ++ c₀ :: r).dropWhile q = c₀ :: r := by
  induction t with
  | nil => rw [List.nil_append, List.dropWhile_cons, if_neg (by simp [hc])]
  | cons a as ih =>
    rw [List.cons_append, List.dropWhile_cons, if_pos (by simp [ht a (by simp)])]
    exact ih (fun c hcm => ht c (by simp [hcm]))

theorem digitChar_mem_digits (d : Nat) : digitChar d ∈ "0123456789".data := by
  rcases d with _ | _ | _ | _ | _ | _ | _ | _ | _ | d <;>
    first
      | decide
      | exact (by decide : ('9' : Char) ∈ "0123456789".data)

theorem mem_digits_facts (c : Char) (h : c ∈ "0123456789".data) :
    pyWS c = false ∧ c ≠ '+' ∧ c ≠ '-' ∧ c ≠ '_' ∧
      ∃ d, digitVal c = some d ∧ d < 10 := by
  fin_cases h <;>
    exact ⟨by decide, by decide, by decide, by decide, _, rfl, by decide⟩

theorem digitVal_digitChar (d : Nat) (h : d < 10) : digitVal (digitChar d) = some d := by
  interval_cases d <;> rfl

theorem parseDigitsCore_digits (l : Str) :
    ∀ acc, (∀ c ∈ l, c ∈ "0123456789".data) →
    parseDigitsCore acc l =
      some (l.foldl (fun a c => a * 10 + (digitVal c).getD 0) acc) := by
  induction l with
  | nil => intro acc _; rfl
  | cons c rest ih =>
    intro acc hall
    obtain ⟨_, _, _, hund, d, hdv, _⟩ := mem_digits_facts c (hall c (by simp))
    rw [parseDigitsCore.eq_def]
    dsimp only []
    rw [if_neg hund, hdv]
    dsimp only []
    rw [ih _ (fun x hx => hall x (by simp [hx]))]
    simp [List.foldl_cons, hdv]

theorem natReprAux_zero (fuel : Nat) : natReprAux fuel 0 = [] := by
  cases fuel <;> rfl

theorem natReprAux_spec : ∀ fuel n, 0 < n → n ≤ fuel →
    natReprAux fuel n ≠ [] ∧ (∀ c ∈ natReprAux fuel n, c ∈ "0123456789".data) ∧
    (natReprAux fuel n).foldl (fun a c => a * 10 + (digitVal c).getD 0) 0 = n := by
  intro fuel
  induction fuel with
  | zero => intro n h1 h2; omega
  | succ fuel ih =>
    intro n h1 h2
    obtain ⟨m, rfl⟩ : ∃ m, n = m + 1 := ⟨n - 1, by omega⟩
    rw [show natReprAux (fuel + 1) (m + 1) =
      natReprAux fuel ((m + 1) / 10) ++ [digitChar ((m + 1) % 10)] from rfl]
    by_cases h10 : (m + 1) / 10 = 0
    · rw [h10, natReprAux_zero, List.nil_append]
      refine ⟨by simp, ?_, ?_⟩
      · intro c hc
        simp only [List.mem_singleton] at hc
        subst hc
        exact digitChar_mem_digits _
      · simp only [List.foldl_cons, List.foldl_nil]
        rw [digitVal_digitChar _ (Nat.mod_lt _ (by omega))]
        simp only [Option.getD_some]
        omega
    · have hlt : (m + 1) / 10 < m + 1 := Nat.div_lt_self (by omega) (by omega)
      obtain ⟨hne, hdig, hval⟩ := ih ((m + 1) / 10) (by omega) (by omega)
      refine ⟨by simp, ?_, ?_⟩
      · intro c hc
        rcases List.mem_append.mp hc with h3 | h4
        · exact hdig c h3
        · simp only [List.mem_singleton] at h4
          subst h4
          exact digitChar_mem_digits _
      · rw [List.foldl_append]
        simp only [List.foldl_cons, List.foldl_nil]
        rw [hval, digitVal_digitChar _ (Nat.mod_lt _ (by omega))]
        simp only [Option.getD_some]
        omega

theorem natRepr_spec (n : Nat) :
    natRepr n ≠ [] ∧ (∀ c ∈ natRepr n, c ∈ "0123456789".data) ∧
    parseDigitsStart (natRepr n) = some n := by
  by_cases h : n = 0
  · subst h
    exact ⟨by decide, by decide, rfl⟩
  · unfold natRepr
    rw [if_neg h]
    obtain ⟨hne, hdig, hval⟩ := natReprAux_spec (n + 1) n (by omega) (by omega)
    refine ⟨hne, hdig, ?_⟩
    cases hrepr : natReprAux (n + 1) n with
    | nil => exact absurd hrepr hne
    | cons c rest =>
      obtain ⟨_, _, _, _, d, hdv, _⟩ :=
        mem_digits_facts c (hdig c (by rw [hrepr]; simp))
      rw [parseDigitsStart, hdv]
      dsimp only []
      rw [parseDigitsCore_digits rest d (fun x hx => hdig x (by rw [hrepr]; simp [hx]))]
      rw [hrepr] at hval
      simp only [List.foldl_cons, hdv, Option.getD_some] at hval
      simpa using hval

theorem stripped_of_digits (l : Str) (h : ∀ c ∈ l, c ∈ "0123456789".data) :
    stripped l := by
  constructor
  · intro c t he
    exact (mem_digits_facts c (h c (he ▸ by simp))).1
  · intro a d he
    exact (mem_digits_facts d (h d (he ▸ by simp))).1

theorem pythonInt_intRepr (i : Int) : pythonInt (intRepr i) = some i := by
  cases i with
  | ofNat n =>
    show pythonInt (natRepr n) = some (Int.ofNat n)
    obtain ⟨hne, hdig, hval⟩ := natRepr_spec n
    unfold pythonInt
    rw [trimWS_eq_self _ (stripped_of_digits _ hdig)]
    cases hrepr : natRepr n with
    | nil => exact absurd hrepr hne
    | cons c rest =>
      obtain ⟨_, hplus, hminus, _, _⟩ :=
        mem_digits_facts c (hdig c (by rw [hrepr]; simp))
      dsimp only []
      rw [if_neg hplus, if_neg hminus, ← hrepr, hval]
      rfl
  | negSucc n =>
    show pythonInt ('-' :: natRepr (n + 1)) = some (Int.negSucc n)
    obtain ⟨hne, hdig, hval⟩ := natRepr_spec (n + 1)
    unfold pythonInt
    have hstr : stripped ('-' :: natRepr (n + 1)) := by
      constructor
      · intro c t he
        cases he
        decide
      · intro a d he
        cases a with
        | nil =>
          simp only [List.nil_append] at he
          have hnil : natRepr (n + 1) = [] := by
            have hlen := congrArg List.length he
            simp at hlen
            exact hlen
          exact absurd hnil hne
        | cons a0 as =>
          simp only [List.cons_append, List.cons.injEq] at he
          have : d ∈ natRepr (n + 1) := by
            rw [he.2]
            simp
          exact (mem_digits_facts d (hdig d this)).1
    rw [trimWS_eq_self _ hstr]
    dsimp only []
    rw [if_neg (by decide), if_pos rfl, hval]
    rfl

theorem intRepr_token (i : Int) :
    intRepr i ≠ [] ∧ ∀ c ∈ intRepr i, pyWS c = false := by
  cases i with
  | ofNat n =>
    obtain ⟨hne, hdig, _⟩ := natRepr_spec n
    exact ⟨hne, fun c hc => (mem_digits_facts c (hdig c hc)).1⟩
  | negSucc n =>
    obtain ⟨_, hdig, _⟩ := natRepr_spec (n + 1)
    refine ⟨by simp [intRepr], ?_⟩
    intro c hc
    rcases List.mem_cons.mp hc with h1 | h2
    · subst h1; decide
    · exact (mem_digits_facts c (hdig c h2)).1

theorem setPair_mem (k : Str) (v : Str) (l : List (Str × Str)) :
    ∀ e ∈ setPair k v l, e = (k, v) ∨ e ∈ l := by
  induction l with
  | nil => intro e he; simp [setPair] at he; simp [he]
  | cons kv rest ih =>
    intro e he
    by_cases hk : kv.1 = k
    · rw [setPair, if_pos hk] at he
      rcases List.mem_cons.mp he with h1 | h2
      · exact Or.inl h1
      · exact Or.inr (List.mem_cons_of_mem kv h2)
    · rw [setPair, if_neg hk] at he
      rcases List.mem_cons.mp he with h1 | h2
      · exact Or.inr (h1 ▸ List.mem_cons_self kv rest)
      · rcases ih e h2 with h3 | h4
        · exact Or.inl h3
        · exact Or.inr (List.mem_cons_of_mem kv h4)

theorem setPair_pairwise (k : Str) (v : Str) (l : List (Str × Str))
    (h : l.Pairwise (fun a b => a.1 ≠ b.1)) :
    (setPair k v l).Pairwise (fun a b => a.1 ≠ b.1) := by
  induction l with
  | nil => simp [setPair]
  | cons kv rest ih =>
    rw [List.pairwise_cons] at h
    by_cases hk : kv.1 = k
    · rw [setPair, if_pos hk, List.pairwise_cons]
      exact ⟨fun e he => by rw [← hk]; exact h.1 e he, h.2⟩
    · rw [setPair, if_neg hk, List.pairwise_cons]
      refine ⟨?_, ih h.2⟩
      intro e he
      rcases setPair_mem k v rest e he with h1 | h2
      · rw [h1]; exact hk
      · exact h.1 e h2

theorem parseHeaderLines_wf (lines : List Str) :
    ∀ acc, (∀ line ∈ lines, noNL line) →
    (∀ kv ∈ acc, pairOK kv) → acc.Pairwise (fun a b => a.1 ≠ b.1) →
    (∀ kv ∈ (parseHeaderLines lines acc).1, pairOK kv) ∧
    (parseHeaderLines lines acc).1.Pairwise (fun a b => a.1 ≠ b.1) ∧
    (∀ b, (parseHeaderLines lines acc).2 = some b → '\r' ∉ b) := by
  induction lines with
  | nil =>
    intro acc _ hacc hpw
    exact ⟨hacc, hpw, fun b hb => by simp [parseHeaderLines] at hb⟩
  | cons line rest ih =>
    intro acc hlines hacc hpw
    rw [parseHeaderLines]
    by_cases hl : trimWS line = []
    · rw [if_pos hl]
      refine ⟨hacc, hpw, ?_⟩
      intro b hb hr
      by_cases hr0 : rest = []
      · rw [if_pos hr0] at hb; cases hb
      · rw [if_neg hr0] at hb
        have hb' : joinNL rest = b := by simpa using hb
        subst hb'
        rcases joinNL_mem rest '\r' hr with h1 | ⟨x, hx1, hx2⟩
        · cases h1
        · exact ((hlines x (by simp [hx1])) '\r' hx2).2 rfl
    · rw [if_neg hl]
      have hrest : ∀ l ∈ rest, noNL l := fun l hm => hlines l (by simp [hm])
      rcases hsp : splitFirstChar ':' (trimWS line) with ⟨k0, ob⟩
      cases ob with
      | none => exact ih acc hrest hacc hpw
      | some v0 =>
        obtain ⟨heq, hni⟩ := splitFirstChar_eq ':' (trimWS line) k0 v0 hsp
        have hline_sub : ∀ c ∈ trimWS line, c ∈ line := trimWS_subset line
        have hk0sub : ∀ c ∈ k0, c ∈ line := by
          intro c hc
          exact hline_sub c (by rw [heq]; simp [hc])
        have hv0sub : ∀ c ∈ v0, c ∈ line := by
          intro c hc
          exact hline_sub c (by rw [heq]; simp [hc])
        have hnew : pairOK (trimWS k0, trimWS v0) := by
          refine ⟨?_, ?_, trimWS_stripped k0, trimWS_stripped v0, ?_⟩
          · intro c hc
            exact (hlines line (by simp)) c (hk0sub c (trimWS_subset k0 c hc))
          · intro c hc
            exact (hlines line (by simp)) c (hv0sub c (trimWS_subset v0 c hc))
          · intro hc
            exact hni (trimWS_subset k0 ':' hc)
        refine ih _ hrest ?_ (setPair_pairwise _ _ _ hpw)
        intro kv hkv
        rcases setPair_mem _ _ _ kv hkv with h1 | h2
        · rw [h1]; exact hnew
        · exact hacc kv h2

theorem pySplitWS_tokens (l : Str) :
    ∀ t ∈ pySplitWS l, (t ≠ [] ∧ ∀ c ∈ t, pyWS c = false ∧ c ∈ l) := by
  intro t ht
  obtain ⟨hmem, hne⟩ := List.mem_filter.mp ht
  refine ⟨by simpa using hne, fun c hc => ?_⟩
  exact ⟨splitP_pieces_no pyWS l t hmem c hc, splitP_pieces_subset pyWS l t hmem c hc⟩

theorem pySplitWS_first (l : Str) (hstr : ∀ c t, l = c :: t → pyWS c = false) :
    ∀ t ts, pySplitWS l = t :: ts → ∃ r, l = t ++ r := by
  intro t ts h
  cases l with
  | nil => cases h
  | cons c0 t0 =>
    have hc0 : pyWS c0 = false := hstr c0 t0 rfl
    obtain ⟨tl, htl⟩ := splitP_head pyWS (c0 :: t0)
    have htw : (c0 :: t0).takeWhile (fun c => !pyWS c) = c0 :: t0.takeWhile (fun c => !pyWS c) := by
      rw [List.takeWhile_cons, if_pos (by simp [hc0])]
    rw [pySplitWS, htl, htw] at h
    simp only [List.filter_cons, List.cons_ne_self] at h
    rw [if_pos (by simp)] at h
    have ht : t = c0 :: t0.takeWhile (fun c => !pyWS c) := by
      have := List.cons.injEq (c0 :: t0.takeWhile (fun c => !pyWS c))
        (List.filter (fun s => decide ¬s = []) tl) t ts
      cases h
      rfl
    refine ⟨(c0 :: t0).dropWhile (fun c => !pyWS c), ?_⟩
    rw [ht, ← htw, List.takeWhile_append_dropWhile]

theorem dropWhile_suffix (p : Char → Bool) (l : Str) :
    ∃ pre, l = pre ++ l.dropWhile p :=
  ⟨l.takeWhile p, (List.takeWhile_append_dropWhile p l).symm⟩

theorem stripped_last_suffix (l sfx pre : Str) (he : l = pre ++ sfx)
    (hl : ∀ a d, l = a ++ [d] → pyWS d = false) :
    ∀ a d, sfx = a ++ [d] → pyWS d = false := by
  intro a d hd
  exact hl (pre ++ a) d (by rw [he, hd, List.append_assoc])

theorem tokenOK_default : tokenOK "HTTP/1.1".data := by
  constructor
  · decide
  · show ∀ c ∈ "HTTP/1.1".data, pyWS c = false
    decide

theorem parseRequestLine_wf (fl : Str)
    (hstr : stripped fl) (hlead : leadsWith "HTTP/".data fl = false) :
    (∀ t, (parseRequestLine fl { is_request := true }).method = some t →
      tokenOK t ∧ leadsWith "HTTP/".data t = false) ∧
    (∀ t, (parseRequestLine fl { is_request := true }).path = some t → tokenOK t) ∧
    tokenOK (parseRequestLine fl { is_request := true }).version ∧
    (parseRequestLine fl { is_request := true }).is_request = true ∧
    (parseRequestLine fl { is_request := true }).status_code = none ∧
    (parseRequestLine fl { is_request := true }).status_message = none := by
  have htok : ∀ t ∈ pySplitWS fl, tokenOK t := by
    intro t ht
    obtain ⟨hne, hall⟩ := pySplitWS_tokens fl t ht
    exact ⟨hne, fun c hc => (hall c hc).1⟩
  have hm : ∀ t ts, pySplitWS fl = t :: ts → leadsWith "HTTP/".data t = false := by
    intro t ts hts
    cases hlt : leadsWith "HTTP/".data t with
    | false => rfl
    | true =>
      obtain ⟨r, hr⟩ := pySplitWS_first fl hstr.1 t ts hts
      rw [hr] at hlead
      rw [leadsWith_append_right _ _ _ hlt] at hlead
      cases hlead
  unfold parseRequestLine
  rcases hts : pySplitWS fl with _ | ⟨t1, _ | ⟨t2, _ | ⟨t3, ttail⟩⟩⟩ <;> dsimp only []
  · refine ⟨?_, ?_, tokenOK_default, rfl, rfl, rfl⟩
    · intro t ht
      exact nomatch ht
    · intro t ht
      exact nomatch ht
  · refine ⟨?_, ?_, tokenOK_default, rfl, rfl, rfl⟩
    · intro t ht
      have h1 : t = t1 := (Option.some.inj ht).symm
      subst h1
      exact ⟨htok t (by rw [hts]; simp), hm t _ hts⟩
    · intro t ht
      exact nomatch ht
  · refine ⟨?_, ?_, tokenOK_default, rfl, rfl, rfl⟩
    · intro t ht
      have h1 : t = t1 := (Option.some.inj ht).symm
      subst h1
      exact ⟨htok t (by rw [hts]; simp), hm t _ hts⟩
    · intro t ht
      have h1 : t = t2 := (Option.some.inj ht).symm
      subst h1
      exact htok t (by rw [hts]; simp)
  · refine ⟨?_, ?_, htok t3 (by rw [hts]; simp), rfl, rfl, rfl⟩
    · intro t ht
      have h1 : t = t1 := (Option.some.inj ht).symm
      subst h1
      exact ⟨htok t (by rw [hts]; simp), hm t _ hts⟩
    · intro t ht
      have h1 : t = t2 := (Option.some.inj ht).symm
      subst h1
      exact htok t (by rw [hts]; simp)

theorem parseStatusLine_wf (fl : Str)
    (hstr : stripped fl) (hnl : noNL fl)
    (hlead : leadsWith "HTTP/".data fl = true) :
    tokenOK (parseStatusLine fl { is_request := false }).version ∧
    leadsWith "HTTP/".data (parseStatusLine fl { is_request := false }).version = true ∧
    (∀ m, (parseStatusLine fl { is_request := false }).status_message = some m →
      m ≠ [] ∧ noNL m ∧ stripped m) ∧
    (parseStatusLine fl { is_request := false }).is_request = false ∧
    (parseStatusLine fl { is_request := false }).method = none ∧
    (parseStatusLine fl { is_request := false }).path = none := by
  cases fl with
  | nil => exact absurd hlead (by decide)
  | cons c0 t0 =>
    have hc0 : pyWS c0 = false := hstr.1 c0 t0 rfl
    have hl1 : (c0 :: t0).dropWhile pyWS = c0 :: t0 :=
      dropWhile_eq_self_of_head pyWS _ hstr.1
    have htok1 : tokenOK ((c0 :: t0).takeWhile notWS) := by
      constructor
      · rw [List.takeWhile_cons, if_pos (by simp [notWS, hc0])]
        simp
      · intro c hc
        have := List.mem_takeWhile_imp hc
        simpa [notWS] using this
    have htok1lead : leadsWith "HTTP/".data ((c0 :: t0).takeWhile notWS) = true :=
      leadsWith_takeWhile _ _ (by decide) hlead
    unfold parseStatusLine splitNone2
    dsimp only []
    rw [hl1]
    dsimp only []
    rcases hr1 : ((c0 :: t0).dropWhile notWS).dropWhile pyWS with _ | ⟨d0, r1t⟩
    · dsimp only []
      refine ⟨htok1, htok1lead, ?_, rfl, rfl, rfl⟩
      intro m hm
      exact nomatch hm
    · dsimp only []
      rcases hr2 : ((d0 :: r1t).dropWhile notWS).dropWhile pyWS with _ | ⟨e0, r2t⟩
      · dsimp only []
        refine ⟨htok1, htok1lead, ?_, rfl, rfl, rfl⟩
        intro m hm
        exact nomatch hm
      · dsimp only []
        refine ⟨htok1, htok1lead, ?_, rfl, rfl, rfl⟩
        intro m hm
        have hme : m = e0 :: r2t := (Option.some.inj hm).symm
        subst hme
        have hsub : ∀ c ∈ (e0 :: r2t), c ∈ (c0 :: t0) := by
          intro c hc
          rw [← hr2] at hc
          have h1 := (List.dropWhile_sublist pyWS).subset hc
          have h2 := (List.dropWhile_sublist notWS).subset h1
          rw [← hr1] at h2
          have h3 := (List.dropWhile_sublist pyWS).subset h2
          exact (List.dropWhile_sublist notWS).subset h3
        refine ⟨by simp, fun c hc => hnl c (hsub c hc), ?_, ?_⟩
        · intro c t he
          have hce : c = e0 := by cases he; rfl
          subst hce
          exact dropWhile_head_not pyWS _ _ _ hr2
        · obtain ⟨p1, hp1⟩ := dropWhile_suffix notWS (c0 :: t0)
          obtain ⟨p2, hp2⟩ := dropWhile_suffix pyWS ((c0 :: t0).dropWhile notWS)
          obtain ⟨p3, hp3⟩ := dropWhile_suffix notWS (d0 :: r1t)
          obtain ⟨p4, hp4⟩ := dropWhile_suffix pyWS ((d0 :: r1t).dropWhile notWS)
          have hpre : (c0 :: t0) = (p1 ++ (p2 ++ (p3 ++ p4))) ++ (e0 :: r2t) := by
            conv_lhs => rw [hp1, hp2, hr1, hp3, hp4, hr2]
            simp [List.append_assoc]
          exact stripped_last_suffix _ _ _ hpre hstr.2

/-- Every `parse` result satisfies the structural invariants `WF`. -/
theorem parse_wf (s : Str) : WF (parse s) := by
  by_cases hs : s = []
  · subst hs
    unfold parse
    rw [if_pos rfl]
    refine ⟨?_, ?_, tokenOK_default, ?_, ?_, ?_, List.Pairwise.nil, ?_, ?_, ?_⟩
    · intro t ht; exact nomatch ht
    · intro t ht; exact nomatch ht
    · intro h4; exact nomatch h4
    · intro m hm; exact nomatch hm
    · intro kv hkv; exact absurd hkv (List.not_mem_nil kv)
    · intro b hb; exact nomatch hb
    · intro _; exact ⟨rfl, rfl⟩
    · intro h10; exact nomatch h10
  · unfold parse
    rw [if_neg hs]
    rcases hlines : splitChar '\n' (normalizeNL s) with _ | ⟨first, rest⟩
    · exact absurd hlines (splitP_ne_nil _ _)
    · dsimp only []
      have hpieceNL : ∀ x ∈ splitChar '\n' (normalizeNL s), noNL x := by
        intro x hx c hc
        constructor
        · intro he
          have h1 := splitP_pieces_no (fun c => c = '\n') (normalizeNL s) x hx c hc
          rw [he] at h1
          simp at h1
        · intro he
          have h2 := splitP_pieces_subset (fun c => c = '\n') (normalizeNL s) x hx c hc
          rw [he] at h2
          exact mapCR_out_no_cr _ h2
      have hfstNL : noNL first := hpieceNL first (by rw [hlines]; simp)
      have hflNL : noNL (trimWS first) :=
        fun c hc => hfstNL c (trimWS_subset first c hc)
      have hrestNL : ∀ x ∈ rest, noNL x :=
        fun x hx => hpieceNL x (by rw [hlines]; simp [hx])
      have hflstr : stripped (trimWS first) := trimWS_stripped first
      rcases hph : parseHeaderLines rest [] with ⟨hs0, b0⟩
      obtain ⟨hdrOK, hdrPW, hbody⟩ := parseHeaderLines_wf rest [] hrestNL
        (fun kv h => absurd h (List.not_mem_nil kv)) List.Pairwise.nil
      rw [hph] at hdrOK hdrPW hbody
      by_cases hld : leadsWith "HTTP/".data (trimWS first) = true
      · rw [if_pos hld]
        dsimp only []
        obtain ⟨hv1, hv2, hmsg, hreq, hmeth, hpath⟩ :=
          parseStatusLine_wf (trimWS first) hflstr hflNL hld
        refine ⟨?_, ?_, hv1, ?_, hmsg, hdrOK, hdrPW, ?_, ?_, ?_⟩
        · intro t ht
          exact nomatch (hmeth.symm.trans ht)
        · intro t ht
          exact nomatch (hpath.symm.trans ht)
        · intro _
          exact hv2
        · intro b hb
          exact hbody b hb
        · intro h9
          exact nomatch (hreq.symm.trans h9)
        · intro _
          exact ⟨hmeth, hpath⟩
      · rw [if_neg hld]
        dsimp only []
        obtain ⟨hmwf, hpwf, hvwf, hreq, hsc, hsm⟩ := parseRequestLine_wf (trimWS first)
          hflstr (by simpa using hld)
        refine ⟨hmwf, hpwf, hvwf, ?_, ?_, hdrOK, hdrPW, ?_, ?_, ?_⟩
        · intro h4
          exact nomatch (hreq.symm.trans h4)
        · intro m hm
          exact nomatch (hsm.symm.trans hm)
        · intro b hb
          exact hbody b hb
        · intro _
          exact ⟨hsc, hsm⟩
        · intro h10
          exact nomatch (hreq.symm.trans h10)

theorem concat_last_inj (x y : Str) (d1 d2 : Char) (h : x ++ [d1] = y ++ [d2]) :
    d1 = d2 := by
  have hrev := congrArg List.reverse h
  simp only [List.reverse_append, List.reverse_singleton, List.singleton_append] at hrev
  exact (List.cons.injEq _ _ _ _ ▸ hrev).1

theorem setPair_append (k : Str) (v : Str) (acc : List (Str × Str))
    (h : ∀ e ∈ acc, e.1 ≠ k) : setPair k v acc = acc ++ [(k, v)] := by
  induction acc with
  | nil => rfl
  | cons kv rest ih =>
    rw [setPair, if_neg (h kv (by simp)), ih (fun e he => h e (by simp [he]))]
    rfl

theorem trimWS_hline_emptyv (k : Str) (hk : stripped k) :
    trimWS (k ++ [':', ' ']) = k ++ [':'] := by
  unfold trimWS trimLeft
  rw [dropWhile_eq_self_of_head]
  · have h1 : k ++ [':', ' '] = (k ++ [':']) ++ [' '] := by simp
    rw [h1, trimRight_append_ws _ ' ' (by decide)]
    apply trimRight_eq_self
    intro a d hd
    have : d = ':' := (concat_last_inj k a ':' d hd).symm
    subst this
    decide
  · intro c t he
    cases k with
    | nil =>
      simp only [List.nil_append] at he
      cases he
      decide
    | cons kc kr =>
      simp only [List.cons_append, List.cons.injEq] at he
      rw [← he.1]
      exact hk.1 kc kr rfl

theorem stripped_hline (k v : Str) (hk : stripped k) (hv : stripped v)
    (hvne : v ≠ []) : stripped (k ++ ':' :: ' ' :: v) := by
  constructor
  · intro c t he
    cases k with
    | nil =>
      simp only [List.nil_append] at he
      cases he
      decide
    | cons kc kr =>
      simp only [List.cons_append, List.cons.injEq] at he
      rw [← he.1]
      exact hk.1 kc kr rfl
  · intro a d he
    rcases List.eq_nil_or_concat v with h1 | ⟨v', vd, h2⟩
    · exact absurd h1 hvne
    · rw [List.concat_eq_append] at h2
      have hw : k ++ ':' :: ' ' :: v = (k ++ ':' :: ' ' :: v') ++ [vd] := by
        rw [h2]
        simp
      rw [hw] at he
      have : vd = d := concat_last_inj _ _ _ _ he
      subst this
      exact hv.2 v' vd h2

theorem joinCRLF_cons (x : Str) (L : List Str) (h : L ≠ []) :
    joinCRLF (x :: L) = x ++ '\r' :: '\n' :: joinCRLF L := by
  cases L with
  | nil => exact absurd rfl h
  | cons y t => rfl

theorem pySplitWS_three (mt pt v : Str) (h1 : tokenOK mt) (h2 : tokenOK pt)
    (h3 : tokenOK v) :
    pySplitWS (mt ++ ' ' :: (pt ++ ' ' :: v)) = [mt, pt, v] := by
  unfold pySplitWS
  rw [splitP_append_sep pyWS mt _ ' ' (fun c hc => h1.2 c hc) (by decide)]
  rw [splitP_append_sep pyWS pt _ ' ' (fun c hc => h2.2 c hc) (by decide)]
  rw [splitP_all_false pyWS v (fun c hc => h3.2 c hc)]
  simp [List.filter_cons, h1.1, h2.1, h3.1]

theorem notWS_of_token (t : Str) (ht : ∀ c ∈ t, pyWS c = false) :
    ∀ c ∈ t, notWS c = true := by
  intro c hc
  simp [notWS, ht c hc]

theorem splitNone2_three (v code msg : Str) (h1 : tokenOK v)
    (h2 : code ≠ [] ∧ ∀ c ∈ code, pyWS c = false)
    (h3 : msg ≠ [] ∧ stripped msg) :
    splitNone2 (v ++ ' ' :: (code ++ ' ' :: msg)) = [v, code, msg] := by
  obtain ⟨vc, vr, hvc⟩ : ∃ vc vr, v = vc :: vr := by
    cases v with
    | nil => exact absurd rfl h1.1
    | cons a b => exact ⟨a, b, rfl⟩
  obtain ⟨cc, cr, hcc⟩ : ∃ cc cr, code = cc :: cr := by
    cases code with
    | nil => exact absurd rfl h2.1
    | cons a b => exact ⟨a, b, rfl⟩
  obtain ⟨mc, mr, hmc⟩ : ∃ mc mr, msg = mc :: mr := by
    cases msg with
    | nil => exact absurd rfl h3.1
    | cons a b => exact ⟨a, b, rfl⟩
  have hl1 : (v ++ ' ' :: (code ++ ' ' :: msg)).dropWhile pyWS =
      v ++ ' ' :: (code ++ ' ' :: msg) := by
    apply dropWhile_eq_self_of_head
    intro c t he
    rw [hvc] at he
    simp only [List.cons_append, List.cons.injEq] at he
    rw [← he.1]
    exact h1.2 vc (by rw [hvc]; simp)
  have htok1 : (v ++ ' ' :: (code ++ ' ' :: msg)).takeWhile notWS = v :=
    takeWhile_append_stop notWS v _ ' ' (notWS_of_token v h1.2) (by decide)
  have hdrop1 : (v ++ ' ' :: (code ++ ' ' :: msg)).dropWhile notWS =
      ' ' :: (code ++ ' ' :: msg) :=
    dropWhile_append_stop notWS v _ ' ' (notWS_of_token v h1.2) (by decide)
  have hr1 : (' ' :: (code ++ ' ' :: msg)).dropWhile pyWS = code ++ ' ' :: msg := by
    rw [List.dropWhile_cons, if_pos (by decide)]
    apply dropWhile_eq_self_of_head
    intro c t he
    rw [hcc] at he
    simp only [List.cons_append, List.cons.injEq] at he
    rw [← he.1]
    exact h2.2 cc (by rw [hcc]; simp)
  have htok2 : (code ++ ' ' :: msg).takeWhile notWS = code :=
    takeWhile_append_stop notWS code _ ' ' (notWS_of_token code h2.2) (by decide)
  have hdrop2 : (code ++ ' ' :: msg).dropWhile notWS = ' ' :: msg :=
    dropWhile_append_stop notWS code _ ' ' (notWS_of_token code h2.2) (by decide)
  have hr2 : (' ' :: msg).dropWhile pyWS = msg := by
    rw [List.dropWhile_cons, if_pos (by decide)]
    apply dropWhile_eq_self_of_head
    exact h3.2.1
  unfold splitNone2
  dsimp only []
  rw [hl1]
  cases hL : v ++ ' ' :: (code ++ ' ' :: msg) with
  | nil =>
    rw [hvc] at hL
    exact absurd hL (by simp)
  | cons a b =>
    dsimp only []
    rw [← hL, htok1, hdrop1, hr1]
    cases hL2 : code ++ ' ' :: msg with
    | nil =>
      rw [hcc] at hL2
      exact absurd hL2 (by simp)
    | cons a2 b2 =>
      dsimp only []
      rw [← hL2, htok2, hdrop2, hr2]
      cases hL3 : msg with
      | nil => exact absurd hL3 h3.1
      | cons a3 b3 => dsimp only []

theorem parseHeaderLines_roundtrip (kvs : List (Str × Str)) (tl : List Str) :
    ∀ acc, (∀ kv ∈ kvs, pairOK kv) → kvs.Pairwise (fun a b => a.1 ≠ b.1) →
    (∀ kv ∈ kvs, ∀ e ∈ acc, e.1 ≠ kv.1) →
    (parseHeaderLines
      ((kvs.map (fun kv => kv.1 ++ ':' :: ' ' :: kv.2)) ++ [] :: tl) acc).1 =
      acc ++ kvs := by
  induction kvs with
  | nil =>
    intro acc _ _ _
    rw [List.map_nil, List.nil_append, parseHeaderLines]
    simp [trimWS_nil]
  | cons kv kvs' ih =>
    intro acc hOK hPW hdisj
    obtain ⟨k, v⟩ := kv
    obtain ⟨hknl, hvnl, hkstr, hvstr, hkc⟩ := hOK (k, v) (by simp)
    have hPW' := (List.pairwise_cons.mp hPW).2
    have hPWhead := (List.pairwise_cons.mp hPW).1
    have hOK' : ∀ kv ∈ kvs', pairOK kv := fun kv h => hOK kv (by simp [h])
    have hdisj' : ∀ kv' ∈ kvs', ∀ e ∈ acc ++ [(k, v)], e.1 ≠ kv'.1 := by
      intro kv' hkv' e he
      rcases List.mem_append.mp he with h1 | h2
      · exact hdisj kv' (by simp [hkv']) e h1
      · have he2 : e = (k, v) := by simpa using h2
        rw [he2]
        exact hPWhead kv' hkv'
    rw [List.map_cons, List.cons_append, parseHeaderLines]
    dsimp only []
    by_cases hv : v = []
    · subst hv
      have htrim : trimWS (k ++ ':' :: ' ' :: ([] : Str)) = k ++ [':'] := by
        have h0 : k ++ ':' :: ' ' :: ([] : Str) = k ++ [':', ' '] := rfl
        rw [h0, trimWS_hline_emptyv k hkstr]
      rw [htrim]
      rw [if_neg (by simp)]
      rw [show k ++ [':'] = k ++ ':' :: ([] : Str) from rfl]
      rw [splitFirstChar_append ':' k [] hkc]
      dsimp only []
      rw [trimWS_eq_self k hkstr, trimWS_nil]
      rw [setPair_append k [] acc (fun e he => hdisj (k, []) (by simp) e he)]
      rw [ih (acc ++ [(k, [])]) hOK' hPW' hdisj']
      simp [List.append_assoc]
    · have htrim : trimWS (k ++ ':' :: ' ' :: v) = k ++ ':' :: ' ' :: v :=
        trimWS_eq_self _ (stripped_hline k v hkstr hvstr hv)
      rw [htrim]
      rw [if_neg (by simp)]
      rw [splitFirstChar_append ':' k (' ' :: v) hkc]
      dsimp only []
      rw [trimWS_eq_self k hkstr, trimWS_cons_ws ' ' v (by decide),
        trimWS_eq_self v hvstr]
      rw [setPair_append k v acc (fun e he => hdisj (k, v) (by simp) e he)]
      rw [ih (acc ++ [(k, v)]) hOK' hPW' hdisj']
      simp [List.append_assoc]

theorem pyOrStr_some (t : Str) (h : t ≠ []) (d : Str) : pyOrStr (some t) d = t := by
  cases t with
  | nil => exact absurd rfl h
  | cons c cs => rfl

theorem not_nl_of_not_ws (c : Char) (h : pyWS c = false) : c ≠ '\n' ∧ c ≠ '\r' :=
  ⟨fun he => absurd (he ▸ h) (by decide), fun he => absurd (he ▸ h) (by decide)⟩

theorem hline_noNL (hdrs : List (Str × Str)) (hhdrs : ∀ kv ∈ hdrs, pairOK kv) :
    ∀ x ∈ hdrs.map (fun kv => kv.1 ++ ':' :: ' ' :: kv.2), noNL x := by
  intro x hx c hc
  obtain ⟨kv, hkv, rfl⟩ := List.mem_map.mp hx
  rcases List.mem_append.mp hc with h1 | h2
  · exact (hhdrs kv hkv).1 c h1
  · rcases List.mem_cons.mp h2 with h3 | h4
    · subst h3; exact ⟨by decide, by decide⟩
    · rcases List.mem_cons.mp h4 with h5 | h6
      · subst h5; exact ⟨by decide, by decide⟩
      · exact (hhdrs kv hkv).2.1 c h6

theorem generate_lines_split (first : Str) (hdrs : List (Str × Str))
    (bdy : Option Str)
    (hfNL : noNL first)
    (hhdrs : ∀ kv ∈ hdrs, pairOK kv)
    (hbdy : ∀ b, bdy = some b → '\r' ∉ b) :
    ∃ tl, splitChar '\n' (normalizeNL (joinCRLF (first ::
        ((hdrs.map (fun kv => kv.1 ++ ':' :: ' ' :: kv.2)) ++ [[]] ++
          (match bdy with
           | none => []
           | some [] => []
           | some (c :: cs) => [c :: cs]))))) =
      first :: ((hdrs.map (fun kv => kv.1 ++ ':' :: ' ' :: kv.2)) ++ [] :: tl) := by
  have hhlNL := hline_noNL hdrs hhdrs
  have hNR : ∀ x ∈ (first ::
      ((hdrs.map (fun kv => kv.1 ++ ':' :: ' ' :: kv.2)) ++ [[]] ++
        (match bdy with
         | none => []
         | some [] => []
         | some (c :: cs) => [c :: cs]))), '\r' ∉ x := by
    intro x hx hr
    rcases List.mem_cons.mp hx with h1 | h2
    · exact ((h1 ▸ hfNL) '\r' hr).2 rfl
    · rcases List.mem_append.mp h2 with h3 | h4
      · rcases List.mem_append.mp h3 with h5 | h6
        · exact ((hhlNL x h5) '\r' hr).2 rfl
        · have : x = [] := by simpa using h6
          subst this
          simp at hr
      · cases hb : bdy with
        | none => rw [hb] at h4; simp at h4
        | some b =>
          cases b with
          | nil => rw [hb] at h4; simp at h4
          | cons c cs =>
            rw [hb] at h4
            have : x = c :: cs := by simpa using h4
            subst this
            exact hbdy (c :: cs) hb hr
  rw [normalizeNL_joinCRLF _ hNR]
  have hpreNL : ∀ y ∈ (first :: hdrs.map (fun kv => kv.1 ++ ':' :: ' ' :: kv.2)),
      '\n' ∉ y := by
    intro y hy hn
    rcases List.mem_cons.mp hy with h1 | h2
    · exact ((h1 ▸ hfNL) '\n' hn).1 rfl
    · exact ((hhlNL y h2) '\n' hn).1 rfl
  cases hb : bdy with
  | none =>
    refine ⟨[], ?_⟩
    have h0 : first :: ((hdrs.map (fun kv => kv.1 ++ ':' :: ' ' :: kv.2)) ++ [[]] ++ []) =
        (first :: hdrs.map (fun kv => kv.1 ++ ':' :: ' ' :: kv.2)) ++ [([] : Str)] := by
      simp
    rw [h0, splitChar_joinNL_append _ _ hpreNL]
    simp [splitChar, splitP]
  | some b =>
    cases b with
    | nil =>
      refine ⟨[], ?_⟩
      have h0 : first :: ((hdrs.map (fun kv => kv.1 ++ ':' :: ' ' :: kv.2)) ++ [[]] ++ []) =
          (first :: hdrs.map (fun kv => kv.1 ++ ':' :: ' ' :: kv.2)) ++ [([] : Str)] := by
        simp
      rw [h0, splitChar_joinNL_append _ _ hpreNL]
      simp [splitChar, splitP]
    | cons c cs =>
      refine ⟨splitChar '\n' (c :: cs), ?_⟩
      have h0 : first :: ((hdrs.map (fun kv => kv.1 ++ ':' :: ' ' :: kv.2)) ++ [[]] ++ [c :: cs]) =
          ((first :: hdrs.map (fun kv => kv.1 ++ ':' :: ' ' :: kv.2)) ++ [([] : Str)]) ++ [c :: cs] := by
        simp
      rw [h0]
      rw [splitChar_joinNL_append _ _ (by
        intro y hy hn
        rcases List.mem_append.mp hy with h1 | h2
        · exact hpreNL y h1 hn
        · have : y = [] := by simpa using h2
          subst this
          simp at hn)]
      simp

theorem roundtrip_request (mt pt ver : Str) (sc : Option Int) (sm : Option Str)
    (hdrs : List (Str × Str)) (bdy : Option Str)
    (hmt : tokenOK mt) (hmlead : leadsWith "HTTP/".data mt = false)
    (hpt : tokenOK pt) (hver : tokenOK ver)
    (hhdrs : ∀ kv ∈ hdrs, pairOK kv) (hpw : hdrs.Pairwise (fun a b => a.1 ≠ b.1))
    (hbdy : ∀ b, bdy = some b → '\r' ∉ b) :
    (parse (generate ⟨some mt, some pt, ver, sc, sm, hdrs, bdy, true⟩)).method = some mt ∧
    (parse (generate ⟨some mt, some pt, ver, sc, sm, hdrs, bdy, true⟩)).path = some pt ∧
    (parse (generate ⟨some mt, some pt, ver, sc, sm, hdrs, bdy, true⟩)).version = ver ∧
    (parse (generate ⟨some mt, some pt, ver, sc, sm, hdrs, bdy, true⟩)).status_code = none ∧
    (parse (generate ⟨some mt, some pt, ver, sc, sm, hdrs, bdy, true⟩)).status_message = none ∧
    (parse (generate ⟨some mt, some pt, ver, sc, sm, hdrs, bdy, true⟩)).headers = hdrs := by
  obtain ⟨mtc, mtr, rfl⟩ : ∃ a b, mt = a :: b := by
    cases mt with
    | nil => exact absurd rfl hmt.1
    | cons a b => exact ⟨a, b, rfl⟩
  obtain ⟨ptc, ptr, rfl⟩ : ∃ a b, pt = a :: b := by
    cases pt with
    | nil => exact absurd rfl hpt.1
    | cons a b => exact ⟨a, b, rfl⟩
  have hgen : generate ⟨some (mtc :: mtr), some (ptc :: ptr), ver, sc, sm, hdrs, bdy, true⟩ =
      joinCRLF (((mtc :: mtr) ++ ' ' :: ((ptc :: ptr) ++ ' ' :: ver)) ::
        ((hdrs.map (fun kv => kv.1 ++ ':' :: ' ' :: kv.2)) ++ [[]] ++
          (match bdy with
           | none => []
           | some [] => []
           | some (c :: cs) => [c :: cs]))) := rfl
  have hfNL : noNL ((mtc :: mtr) ++ ' ' :: ((ptc :: ptr) ++ ' ' :: ver)) := by
    intro c hc
    rcases List.mem_append.mp hc with h1 | h2
    · exact not_nl_of_not_ws c (hmt.2 c h1)
    · rcases List.mem_cons.mp h2 with h3 | h4
      · subst h3; exact ⟨by decide, by decide⟩
      · rcases List.mem_append.mp h4 with h5 | h6
        · exact not_nl_of_not_ws c (hpt.2 c h5)
        · rcases List.mem_cons.mp h6 with h7 | h8
          · subst h7; exact ⟨by decide, by decide⟩
          · exact not_nl_of_not_ws c (hver.2 c h8)
  obtain ⟨tl, htl⟩ := generate_lines_split
    ((mtc :: mtr) ++ ' ' :: ((ptc :: ptr) ++ ' ' :: ver)) hdrs bdy hfNL hhdrs hbdy
  have hne : generate ⟨some (mtc :: mtr), some (ptc :: ptr), ver, sc, sm, hdrs, bdy, true⟩ ≠ [] := by
    rw [hgen, joinCRLF_cons _ _ (by simp)]
    simp
  have hfty : stripped ((mtc :: mtr) ++ ' ' :: ((ptc :: ptr) ++ ' ' :: ver)) := by
    constructor
    · intro c t he
      simp only [List.cons_append, List.cons.injEq] at he
      rw [← he.1]
      exact hmt.2 mtc (by simp)
    · intro a d he
      rcases List.eq_nil_or_concat ver with h1 | ⟨v', vd, h2⟩
      · exact absurd h1 hver.1
      · rw [List.concat_eq_append] at h2
        have hw : (mtc :: mtr) ++ ' ' :: ((ptc :: ptr) ++ ' ' :: ver) =
            ((mtc :: mtr) ++ ' ' :: ((ptc :: ptr) ++ ' ' :: v')) ++ [vd] := by
          rw [h2]
          simp
        rw [hw] at he
        have hd := concat_last_inj _ _ _ _ he
        rw [← hd]
        exact hver.2 vd (by rw [h2]; simp)
  have hftrim : trimWS ((mtc :: mtr) ++ ' ' :: ((ptc :: ptr) ++ ' ' :: ver)) =
      (mtc :: mtr) ++ ' ' :: ((ptc :: ptr) ++ ' ' :: ver) := trimWS_eq_self _ hfty
  have hlw : leadsWith "HTTP/".data
      ((mtc :: mtr) ++ ' ' :: ((ptc :: ptr) ++ ' ' :: ver)) = false := by
    cases h : leadsWith "HTTP/".data
        ((mtc :: mtr) ++ ' ' :: ((ptc :: ptr) ++ ' ' :: ver)) with
    | false => rfl
    | true =>
      have hh := leadsWith_of_append_sep "HTTP/".data (mtc :: mtr) _ ' '
        (by decide) hmt.2 (by decide) h
      exact nomatch (hh.symm.trans hmlead)
  have hreqline : parseRequestLine
      ((mtc :: mtr) ++ ' ' :: ((ptc :: ptr) ++ ' ' :: ver)) { is_request := true } =
      { method := some (mtc :: mtr), path := some (ptc :: ptr), version := ver,
        is_request := true } := by
    unfold parseRequestLine
    rw [pySplitWS_three _ _ _ hmt hpt hver]
  have hparse : parse (generate ⟨some (mtc :: mtr), some (ptc :: ptr), ver, sc, sm,
      hdrs, bdy, true⟩) =
      { parseRequestLine ((mtc :: mtr) ++ ' ' :: ((ptc :: ptr) ++ ' ' :: ver))
          { is_request := true } with
        headers := (parseHeaderLines
          ((hdrs.map (fun kv => kv.1 ++ ':' :: ' ' :: kv.2)) ++ [] :: tl) []).1,
        body := (parseHeaderLines
          ((hdrs.map (fun kv => kv.1 ++ ':' :: ' ' :: kv.2)) ++ [] :: tl) []).2 } := by
    unfold parse
    rw [if_neg hne]
    rw [show splitChar '\n' (normalizeNL (generate ⟨some (mtc :: mtr), some (ptc :: ptr),
        ver, sc, sm, hdrs, bdy, true⟩)) =
      ((mtc :: mtr) ++ ' ' :: ((ptc :: ptr) ++ ' ' :: ver)) ::
        ((hdrs.map (fun kv => kv.1 ++ ':' :: ' ' :: kv.2)) ++ [] :: tl) from by
      rw [hgen]; exact htl]
    dsimp only []
    rw [hftrim, hlw]
    rfl
  rw [hparse, hreqline]
  refine ⟨rfl, rfl, rfl, rfl, rfl, ?_⟩
  have hhl := parseHeaderLines_roundtrip hdrs tl []
    hhdrs hpw (fun kv _ e he => absurd he (List.not_mem_nil e))
  simpa using hhl

theorem roundtrip_response (ver : Str) (code : Int) (msg : Str)
    (hdrs : List (Str × Str)) (bdy : Option Str)
    (hver : tokenOK ver) (hvlead : leadsWith "HTTP/".data ver = true)
    (hc0 : code ≠ 0)
    (hmsg : msg ≠ [] ∧ noNL msg ∧ stripped msg)
    (hhdrs : ∀ kv ∈ hdrs, pairOK kv) (hpw : hdrs.Pairwise (fun a b => a.1 ≠ b.1))
    (hbdy : ∀ b, bdy = some b → '\r' ∉ b) :
    (parse (generate ⟨none, none, ver, some code, some msg, hdrs, bdy, false⟩)).method = none ∧
    (parse (generate ⟨none, none, ver, some code, some msg, hdrs, bdy, false⟩)).path = none ∧
    (parse (generate ⟨none, none, ver, some code, some msg, hdrs, bdy, false⟩)).version = ver ∧
    (parse (generate ⟨none, none, ver, some code, some msg, hdrs, bdy,
      false⟩)).status_code = some code ∧
    (parse (generate ⟨none, none, ver, some code, some msg, hdrs, bdy,
      false⟩)).status_message = some msg ∧
    (parse (generate ⟨none, none, ver, some code, some msg, hdrs, bdy,
      false⟩)).headers = hdrs := by
  obtain ⟨mc, mr, rfl⟩ : ∃ a b, msg = a :: b := by
    cases msg with
    | nil => exact absurd rfl hmsg.1
    | cons a b => exact ⟨a, b, rfl⟩
  obtain ⟨vc, vr, hvcons⟩ : ∃ a b, ver = a :: b := by
    cases ver with
    | nil => exact absurd rfl hver.1
    | cons a b => exact ⟨a, b, rfl⟩
  have hpc : pyOrCode (some code) = code := by
    unfold pyOrCode
    dsimp only []
    rw [if_neg hc0]
  have hgen : generate ⟨none, none, ver, some code, some (mc :: mr), hdrs, bdy, false⟩ =
      joinCRLF ((ver ++ ' ' :: (intRepr (pyOrCode (some code)) ++ ' ' :: (mc :: mr))) ::
        ((hdrs.map (fun kv => kv.1 ++ ':' :: ' ' :: kv.2)) ++ [[]] ++
          (match bdy with
           | none => []
           | some [] => []
           | some (c :: cs) => [c :: cs]))) := rfl
  rw [hpc] at hgen
  have hfNL : noNL (ver ++ ' ' :: (intRepr code ++ ' ' :: (mc :: mr))) := by
    intro c hc
    rcases List.mem_append.mp hc with h1 | h2
    · exact not_nl_of_not_ws c (hver.2 c h1)
    · rcases List.mem_cons.mp h2 with h3 | h4
      · subst h3; exact ⟨by decide, by decide⟩
      · rcases List.mem_append.mp h4 with h5 | h6
        · exact not_nl_of_not_ws c ((intRepr_token code).2 c h5)
        · rcases List.mem_cons.mp h6 with h7 | h8
          · subst h7; exact ⟨by decide, by decide⟩
          · exact hmsg.2.1 c h8
  obtain ⟨tl, htl⟩ := generate_lines_split
    (ver ++ ' ' :: (intRepr code ++ ' ' :: (mc :: mr))) hdrs bdy hfNL hhdrs hbdy
  have hne : generate ⟨none, none, ver, some code, some (mc :: mr), hdrs, bdy,
      false⟩ ≠ [] := by
    rw [hgen, joinCRLF_cons _ _ (by simp)]
    rw [hvcons]
    simp
  have hfty : stripped (ver ++ ' ' :: (intRepr code ++ ' ' :: (mc :: mr))) := by
    constructor
    · intro c t he
      rw [hvcons] at he
      simp only [List.cons_append, List.cons.injEq] at he
      rw [← he.1]
      exact hver.2 vc (by rw [hvcons]; simp)
    · intro a d he
      rcases List.eq_nil_or_concat (mc :: mr) with h1 | ⟨m', md, h2⟩
      · cases h1
      · rw [List.concat_eq_append] at h2
        have hw : ver ++ ' ' :: (intRepr code ++ ' ' :: (mc :: mr)) =
            (ver ++ ' ' :: (intRepr code ++ ' ' :: m')) ++ [md] := by
          rw [h2]
          simp
        rw [hw] at he
        have hd := concat_last_inj _ _ _ _ he
        rw [← hd]
        exact hmsg.2.2.2 m' md h2
  have hftrim : trimWS (ver ++ ' ' :: (intRepr code ++ ' ' :: (mc :: mr))) =
      ver ++ ' ' :: (intRepr code ++ ' ' :: (mc :: mr)) := trimWS_eq_self _ hfty
  have hlw : leadsWith "HTTP/".data
      (ver ++ ' ' :: (intRepr code ++ ' ' :: (mc :: mr))) = true :=
    leadsWith_append_right _ ver _ hvlead
  have hstat : parseStatusLine (ver ++ ' ' :: (intRepr code ++ ' ' :: (mc :: mr)))
      { is_request := false } =
      { version := ver, status_code := pythonInt (intRepr code),
        status_message := some (mc :: mr), is_request := false } := by
    unfold parseStatusLine
    rw [splitNone2_three ver (intRepr code) (mc :: mr) hver
      ⟨(intRepr_token code).1, (intRepr_token code).2⟩ ⟨by simp, hmsg.2.2⟩]
  have hparse : parse (generate ⟨none, none, ver, some code, some (mc :: mr), hdrs,
      bdy, false⟩) =
      { parseStatusLine (ver ++ ' ' :: (intRepr code ++ ' ' :: (mc :: mr)))
          { is_request := false } with
        headers := (parseHeaderLines
          ((hdrs.map (fun kv => kv.1 ++ ':' :: ' ' :: kv.2)) ++ [] :: tl) []).1,
        body := (parseHeaderLines
          ((hdrs.map (fun kv => kv.1 ++ ':' :: ' ' :: kv.2)) ++ [] :: tl) []).2 } := by
    unfold parse
    rw [if_neg hne]
    rw [show splitChar '\n' (normalizeNL (generate ⟨none, none, ver, some code,
        some (mc :: mr), hdrs, bdy, false⟩)) =
      (ver ++ ' ' :: (intRepr code ++ ' ' :: (mc :: mr))) ::
        ((hdrs.map (fun kv => kv.1 ++ ':' :: ' ' :: kv.2)) ++ [] :: tl) from by
      rw [hgen]; exact htl]
    dsimp only []
    rw [hftrim, hlw]
    rfl
  rw [hparse, hstat]
  refine ⟨rfl, rfl, rfl, pythonInt_intRepr code, rfl, ?_⟩
  have hhl := parseHeaderLines_roundtrip hdrs tl []
    hhdrs hpw (fun kv _ e he => absurd he (List.not_mem_nil e))
  simpa using hhl

theorem roundtrip_of_wf (M : HTTPHeader) (hwf : WF M)
    (hreq : M.is_request = true → M.method ≠ none ∧ M.path ≠ none)
    (hresp : M.is_request = false →
      (∃ c, M.status_code = some c ∧ c ≠ 0) ∧ M.status_message ≠ none) :
    (parse (generate M)).method = M.method ∧
    (parse (generate M)).path = M.path ∧
    (parse (generate M)).version = M.version ∧
    (parse (generate M)).status_code = M.status_code ∧
    (parse (generate M)).status_message = M.status_message ∧
    (parse (generate M)).headers = M.headers := by
  obtain ⟨m, p, v, sc, sm, hd, bd, ir⟩ := M
  obtain ⟨h1, h2, h3, h4, h5, h6, h7, h8, h9, h10⟩ := hwf
  cases ir with
  | true =>
    obtain ⟨hm, hp⟩ := hreq rfl
    obtain ⟨mt, hmt⟩ : ∃ x, m = some x := Option.ne_none_iff_exists'.mp hm
    obtain ⟨pt, hpt⟩ : ∃ x, p = some x := Option.ne_none_iff_exists'.mp hp
    have hsc : sc = none := (h9 rfl).1
    have hsm : sm = none := (h9 rfl).2
    subst hmt hpt hsc hsm
    obtain ⟨hmt1, hmt2⟩ := h1 mt rfl
    exact roundtrip_request mt pt v none none hd bd hmt1 hmt2 (h2 pt rfl) h3 h6 h7 h8
  | false =>
    obtain ⟨⟨c, hsc, hc0⟩, hsm⟩ := hresp rfl
    have hm : m = none := (h10 rfl).1
    have hp : p = none := (h10 rfl).2
    obtain ⟨msg, hmsg⟩ : ∃ x, sm = some x := Option.ne_none_iff_exists'.mp hsm
    have hsc' : sc = some c := hsc
    subst hm hp hmsg hsc'
    exact roundtrip_response v c msg hd bd h3 (h4 rfl) hc0 (h5 msg rfl) h6 h7 h8

/-- C2 counterexample: the round-trip claim fails in general. `Parse("")`
yields a Message whose method is `None`; serializing it defaults the request
line to `GET / HTTP/1.1` (Python truthiness on the optional fields), so
re-parsing produces method `"GET"`, not `None`. -/
theorem parse_generate_counterexample :
    (parse (generate (parse ([] : Str)))).method ≠ (parse ([] : Str)).method := by
  decide

/-- C2 (amended): for any Message `parse s` (any line-ending style is covered
because `s` is arbitrary and `_parse` normalizes CRLF and CR to LF), provided
the optional first-line fields that `generate_header` defaults by Python
truthiness are actually present — for a request, method and target parsed;
for a response, a status code that is not `0` and a status message — parsing
the serialization reproduces the method/target/version resp.
status code/status message/version, and the same header list. -/
theorem parse_generate_roundtrip (s : Str)
    (hreq : (parse s).is_request = true →
      (parse s).method ≠ none ∧ (parse s).path ≠ none)
    (hresp : (parse s).is_request = false →
      (∃ c, (parse s).status_code = some c ∧ c ≠ 0) ∧
        (parse s).status_message ≠ none) :
    (parse (generate (parse s))).method = (parse s).method ∧
    (parse (generate (parse s))).path = (parse s).path ∧
    (parse (generate (parse s))).version = (parse s).version ∧
    (parse (generate (parse s))).status_code = (parse s).status_code ∧
    (parse (generate (parse s))).status_message = (parse s).status_message ∧
    (parse (generate (parse s))).headers = (parse s).headers :=
  roundtrip_of_wf (parse s) (parse_wf s) hreq hresp

/-- C2 witness: the amended round trip at the concrete request
`GET /idx HTTP/1.0` with a `Host` header, written with LF line endings. -/
theorem parse_generate_roundtrip_witness :
    (parse (generate (parse "GET /idx HTTP/1.0\nHost: a\n\n".data))).method =
      (parse "GET /idx HTTP/1.0\nHost: a\n\n".data).method ∧
    (parse (generate (parse "GET /idx HTTP/1.0\nHost: a\n\n".data))).path =
      (parse "GET /idx HTTP/1.0\nHost: a\n\n".data).path ∧
    (parse (generate (parse "GET /idx HTTP/1.0\nHost: a\n\n".data))).version =
      (parse "GET /idx HTTP/1.0\nHost: a\n\n".data).version ∧
    (parse (generate (parse "GET /idx HTTP/1.0\nHost: a\n\n".data))).status_code =
      (parse "GET /idx HTTP/1.0\nHost: a\n\n".data).status_code ∧
    (parse (generate (parse "GET /idx HTTP/1.0\nHost: a\n\n".data))).status_message =
      (parse "GET /idx HTTP/1.0\nHost: a\n\n".data).status_message ∧
    (parse (generate (parse "GET /idx HTTP/1.0\nHost: a\n\n".data))).headers =
      (parse "GET /idx HTTP/1.0\nHost: a\n\n".data).headers :=
  parse_generate_roundtrip "GET /idx HTTP/1.0\nHost: a\n\n".data
    (by decide) (fun h => absurd h (by decide))

end HTTPProxy
